import Mathlib

/-!
Verification development for the eol-checker application core: the compact
URL state codec (src/lib/url-state.ts, strict variant; src/unnamed/part_008,
lenient variant), the lifecycle classifier and segment decomposition
(src/unnamed/part_007, calculateStages / getLifecycleStage), the catalog
accessor (getRelevantCycles) and the version comparator (compareVersions).

Modelling conventions:
* JavaScript strings are lists of characters (`Str`).  The corpus the claims
  quantify over is printable ASCII, so `encodeURIComponent` /
  `decodeURIComponent` are modelled on single-byte (code point < 0x80)
  characters: multi-byte UTF-8 escape sequences never arise in the modelled
  inputs and make `decodeURIComponent` fail in the model.
* JavaScript `Date` values obtained from ISO `YYYY-MM-DD` strings compare
  exactly like the encoded number y*10000 + m*100 + d, so dates are modelled
  as `Nat` in that order-preserving encoding (`Nat`); "now" is the same
  kind of value, passed explicitly (the source reads `new Date()` inside the
  classifier; the spec requires an injectable clock).
* Optional date-or-boolean fields of a cycle are modelled as `Option Nat`:
  `some d` stands for a non-empty string holding a valid date, `none` for
  every value failing the source's `x && typeof x === 'string'` test
  (absent, `false`, `true`, empty string).
-/

namespace EolChecker

abbrev Str := List Char

/-! ## JavaScript string primitives -/

/-- Whitespace removed by JavaScript `String.prototype.trim` (the ASCII part;
the modelled corpus contains no exotic Unicode whitespace).  `Char.ofNat 11`
and `Char.ofNat 12` are vertical tab and form feed. -/
def isJsWhitespace (c : Char) : Bool :=
  c = ' ' || c = '\t' || c = '\n' || c = '\r' || c = Char.ofNat 11 || c = Char.ofNat 12

/-- JavaScript `s.trim()`. -/
def trim (s : Str) : Str :=
  ((s.dropWhile isJsWhitespace).reverse.dropWhile isJsWhitespace).reverse

/-- JavaScript `s.indexOf(c)` (as an `Option` instead of `-1`). -/
def idxOf? (c : Char) (s : Str) : Option Nat :=
  s.findIdx? (· == c)

/-- JavaScript `s.lastIndexOf(c)` (as an `Option` instead of `-1`). -/
def lastIdxOf? (c : Char) (s : Str) : Option Nat :=
  match idxOf? c s.reverse with
  | some i => some (s.length - 1 - i)
  | none => none

/-- JavaScript `s.substring(a, b)`: swaps the arguments when `a > b` and
clamps to the length. -/
def jsSubstring (s : Str) (a b : Nat) : Str :=
  (s.take (max a b)).drop (min a b)

/-! ## Percent-codec (encodeURIComponent / decodeURIComponent, ASCII) -/

/-- Characters `encodeURIComponent` leaves unescaped:
`A-Z a-z 0-9 - _ . ! ~ * ' ( )` (ECMA-262).  Note that the parentheses are
unreserved: `encodeURIComponent` does not escape them. -/
def uriUnreserved (c : Char) : Bool :=
  ('A' ≤ c && c ≤ 'Z') || ('a' ≤ c && c ≤ 'z') || ('0' ≤ c && c ≤ '9') ||
  c = '-' || c = '_' || c = '.' || c = '!' || c = '~' || c = '*' ||
  c.toNat = 39 || c = '(' || c = ')'

/-- Upper-case hex digit for a value below 16. -/
def hexDigitChar (n : Nat) : Char :=
  if n < 10 then Char.ofNat (48 + n) else Char.ofNat (65 + n - 10)

/-- The `%XX` escape of a single-byte character. -/
def percentEscape (c : Char) : Str :=
  ['%', hexDigitChar (c.toNat / 16), hexDigitChar (c.toNat % 16)]

/-- `encodeURIComponent` on ASCII text. -/
def encodeURIComponent : Str → Str
  | [] => []
  | c :: s => (if uriUnreserved c then [c] else percentEscape c) ++ encodeURIComponent s

/-- Value of a hex digit character. -/
def hexVal (c : Char) : Option Nat :=
  if '0' ≤ c ∧ c ≤ '9' then some (c.toNat - 48)
  else if 'A' ≤ c ∧ c ≤ 'F' then some (c.toNat - 65 + 10)
  else if 'a' ≤ c ∧ c ≤ 'f' then some (c.toNat - 97 + 10)
  else none

/-- `decodeURIComponent` on ASCII text; `none` models the `URIError` thrown
on a malformed escape (and on the multi-byte sequences the modelled corpus
never produces). -/
def decodeURIComponent : Str → Option Str
  | [] => some []
  | c :: rest =>
    if c = '%' then
      match rest with
      | h :: l :: rest2 =>
        match hexVal h, hexVal l with
        | some hi, some lo =>
          if 16 * hi + lo < 128 then
            (decodeURIComponent rest2).map (fun t => Char.ofNat (16 * hi + lo) :: t)
          else none
        | _, _ => none
      | _ => none
    else
      (decodeURIComponent rest).map (fun t => c :: t)

/-! ## URL state codec data model (src/lib/types.ts) -/

structure Technology where
  id : Str
  name : Str
  currentVersion : Str
deriving DecidableEq

structure Service where
  id : Str
  name : Str
  technologies : List Technology
deriving DecidableEq

structure URLState where
  version : Nat
  services : List Service
deriving DecidableEq

/-! ## URL state codec (src/lib/url-state.ts and src/unnamed/part_008) -/

def MAX_URL_LENGTH : Nat := 2048

def SCHEMA_VERSION : Nat := 1

/-- The special-character class `/[:;,() ]/` of both codec variants. -/
def SPECIAL_CHARS (c : Char) : Bool :=
  c = ':' || c = ';' || c = ',' || c = '(' || c = ')' || c = ' '

/-- `encodeIfNeeded`: percent-encode the whole field only when it contains a
special character. -/
def encodeIfNeeded (s : Str) : Str :=
  if s.any SPECIAL_CHARS then encodeURIComponent s else s

/-- `decodeIfNeeded`: percent-decode only when the field contains `%`. -/
def decodeIfNeeded (s : Str) : Option Str :=
  if s.contains '%' then decodeURIComponent s else some s

/-- One `name:version` item of the technology list. -/
def encodeTech (t : Technology) : Str :=
  encodeIfNeeded t.name ++ ':' :: encodeIfNeeded t.currentVersion

/-- One `name(tech,tech,...)` service item. -/
def encodeService (s : Service) : Str :=
  encodeIfNeeded s.name ++ '(' :: List.intercalate [','] (s.technologies.map encodeTech) ++ [')']

/-- The services joined with `;` — the string `encodeURLState` length-checks
and returns. -/
def serializeServices (services : List Service) : Str :=
  List.intercalate [';'] (services.map encodeService)

/-- `encodeURLState` (identical in both variants): empty service list encodes
to the empty string; otherwise the serialized form is returned unless
`?s=<encoded>` exceeds `MAX_URL_LENGTH`, which throws. -/
def encodeURLState (state : URLState) : Except Str Str :=
  if state.services.isEmpty then .ok []
  else if MAX_URL_LENGTH < (("?s=".data) ++ serializeServices state.services).length then
    .error ("URL length exceeds maximum allowed length".data)
  else .ok (serializeServices state.services)

/-- `validateURLState` restricted to what can fail on decoder output in the
typed model: ids, names and versions must be non-empty. -/
def validTech (t : Technology) : Bool :=
  !t.id.isEmpty && !t.name.isEmpty && !t.currentVersion.isEmpty

def validService (s : Service) : Bool :=
  !s.id.isEmpty && !s.name.isEmpty && s.technologies.all validTech

def validateURLState (st : URLState) : Bool :=
  st.services.all validService

/-- Technology id assigned by the strict decoder: template
`${serviceName}-${techName}-${j}`. -/
def mkStrictTechId (serviceName techName : Str) (j : Nat) : Str :=
  serviceName ++ '-' :: techName ++ '-' :: (Nat.repr j).data

/-- Service id `service-<n>`. -/
def mkServiceId (n : Nat) : Str :=
  ("service-".data) ++ (Nat.repr n).data

/-- Technology id `tech-<si>-<i>` assigned by the lenient decoder. -/
def mkTechId (si i : Nat) : Str :=
  ("tech-".data) ++ (Nat.repr si).data ++ '-' :: (Nat.repr i).data

/-- Strict decoder, technology loop (src/lib/url-state.ts lines 160-193):
`j` is the index in the comma-split list, advancing over skipped blanks. -/
def decodeTechsStrict (serviceName : Str) : List Str → Nat → Except Str (List Technology)
  | [], _ => .ok []
  | piece :: rest, j =>
    if trim piece = [] then decodeTechsStrict serviceName rest (j + 1)
    else
      match idxOf? ':' (trim piece) with
      | none => .error ("Invalid technology format: missing colon".data)
      | some colonIndex =>
        match decodeIfNeeded (jsSubstring (trim piece) 0 colonIndex),
              decodeIfNeeded ((trim piece).drop (colonIndex + 1)) with
        | some techName, some version =>
          if techName = [] ∨ trim techName = [] then
            .error ("Technology name cannot be empty".data)
          else if version = [] ∨ trim version = [] then
            .error ("Technology version cannot be empty".data)
          else do
            let restT ← decodeTechsStrict serviceName rest (j + 1)
            .ok (⟨mkStrictTechId serviceName techName j, techName, version⟩ :: restT)
        | _, _ => .error ("URIError: URI malformed".data)

/-- Strict decoder, service loop (src/lib/url-state.ts lines 119-201):
`i` is the index in the semicolon-split list, advancing over skipped blanks. -/
def decodeServicesStrict : List Str → Nat → Except Str (List Service)
  | [], _ => .ok []
  | seg :: rest, i =>
    if trim seg = [] then decodeServicesStrict rest (i + 1)
    else
      match idxOf? '(' (trim seg), lastIdxOf? ')' (trim seg) with
      | some op, some cp =>
        if op = 0 then .error ("Invalid service format: missing service name".data)
        else
          match decodeIfNeeded (jsSubstring (trim seg) 0 op) with
          | none => .error ("URIError: URI malformed".data)
          | some serviceName =>
            if serviceName = [] ∨ trim serviceName = [] then
              .error ("Service name cannot be empty".data)
            else do
              let technologies ←
                if trim (jsSubstring (trim seg) (op + 1) cp) ≠ [] then
                  decodeTechsStrict serviceName
                    ((jsSubstring (trim seg) (op + 1) cp).splitOn ',') 0
                else .ok []
              let restS ← decodeServicesStrict rest (i + 1)
              .ok (⟨mkServiceId i, serviceName, technologies⟩ :: restS)
      | _, _ => .error ("Invalid service format: missing parentheses".data)

/-- `decodeURLState` — the strict, whole-input-validating variant of
src/lib/url-state.ts: any malformed segment throws. -/
def decodeURLState (encoded : Str) : Except Str URLState :=
  if encoded = [] ∨ trim encoded = [] then .ok ⟨SCHEMA_VERSION, []⟩
  else do
    let services ← decodeServicesStrict (encoded.splitOn ';') 0
    if validateURLState ⟨SCHEMA_VERSION, services⟩ then .ok ⟨SCHEMA_VERSION, services⟩
    else .error ("URLState validation failed".data)

/-- The lenient decoder's segment regex `^(.+)\((.*)\)$`: the segment must end
with `)`, the `\(` greedily matches the last `(` of the rest, and the service
name before it must be non-empty. -/
def lenientParseSegment (s : Str) : Option (Str × Str) :=
  if s.getLast? = some ')' then
    let body := s.dropLast
    match lastIdxOf? '(' body with
    | some k => if 1 ≤ k then some (body.take k, body.drop (k + 1)) else none
    | none => none
  else none

/-- Lenient decoder, technology loop (src/unnamed/part_008 lines 103-127):
malformed items are skipped; `i` is the comma-split index. -/
def lenientTechs (si : Nat) : List Str → Nat → Except Str (List Technology)
  | [], _ => .ok []
  | piece :: rest, i =>
    if piece = [] then lenientTechs si rest (i + 1)
    else
      match idxOf? ':' piece with
      | none => lenientTechs si rest (i + 1)
      | some ci =>
        match decodeIfNeeded (jsSubstring piece 0 ci),
              decodeIfNeeded (piece.drop (ci + 1)) with
        | some techName, some version =>
          if techName = [] ∨ version = [] then lenientTechs si rest (i + 1)
          else do
            let restT ← lenientTechs si rest (i + 1)
            .ok (⟨mkTechId si i, techName, version⟩ :: restT)
        | _, _ => .error ("URIError: URI malformed".data)

/-- Lenient decoder, service loop (src/unnamed/part_008 lines 80-138):
malformed segments are skipped; `si` counts only the services kept. -/
def lenientServices : List Str → Nat → Except Str (List Service)
  | [], _ => .ok []
  | seg :: rest, si =>
    if seg = [] then lenientServices rest si
    else
      match lenientParseSegment seg with
      | none => lenientServices rest si
      | some (nameEnc, techsStr) =>
        match decodeIfNeeded nameEnc with
        | none => .error ("URIError: URI malformed".data)
        | some serviceName =>
          if serviceName = [] then lenientServices rest si
          else do
            let technologies ←
              if techsStr ≠ [] then lenientTechs si (techsStr.splitOn ',') 0
              else .ok []
            let restS ← lenientServices rest (si + 1)
            .ok (⟨mkServiceId si, serviceName, technologies⟩ :: restS)

/-- `decodeURLState` — the lenient, per-segment-skipping variant of
src/unnamed/part_008 (an uncaught `URIError` from `decodeURIComponent` still
aborts it, modelled as `.error`). -/
def decodeURLStateLenient (encoded : Str) : Except Str URLState :=
  if encoded = [] ∨ trim encoded = [] then .ok ⟨SCHEMA_VERSION, []⟩
  else do
    let services ← lenientServices ((trim encoded).splitOn ';') 0
    .ok ⟨SCHEMA_VERSION, services⟩

/-- Observable content of a technology for the round-trip law (ids excluded). -/
def obsTech (t : Technology) : Str × Str :=
  (t.name, t.currentVersion)

/-- Observable content of a service for the round-trip law (ids excluded). -/
def obsService (s : Service) : Str × List (Str × Str) :=
  (s.name, s.technologies.map obsTech)

/-! ## Lifecycle classifier (src/unnamed/part_007) -/

/-- Timestamps obtained from ISO `YYYY-MM-DD` strings are modelled as `Nat`
in the order-preserving encoding y*10000 + m*100 + d; `mkDate` builds one. -/
def mkDate (y m d : Nat) : Nat := y * 10000 + m * 100 + d

inductive Stage where
  | current
  | active
  | maintenance
  | eol
deriving DecidableEq

/-- One colored sub-range of a version bar.  The source field `end` is a Lean
keyword and is called `endD` here. -/
structure Segment where
  start : Nat
  endD : Nat
  stage : Stage
deriving DecidableEq

/-- One release line as the classifier reads it.  `releaseDate`: `none` is the
empty string (the only falsy string); `eol`: `none` is the literal `false`;
`support` and `lts`: `none` is everything failing `x && typeof x === 'string'`
(absent, booleans, empty string). -/
structure EOLCycle where
  cycle : Str
  releaseDate : Option Nat
  eol : Option Nat
  support : Option Nat
  lts : Option Nat
deriving DecidableEq

/-- `calculateStages` (src/unnamed/part_007 lines 148-229): splits
`[startDate, endDate]` into stage segments.  `now` is passed explicitly
(the source reads `new Date()`). -/
def calculateStages (cycle : EOLCycle) (startDate endDate now : Nat) : List Segment :=
  if endDate < now then [⟨startDate, endDate, .eol⟩]
  else
    match cycle.lts with
    | some ltsDate =>
      match cycle.support with
      | some supportDate =>
        [⟨startDate, ltsDate, .current⟩, ⟨ltsDate, supportDate, .active⟩,
         ⟨supportDate, endDate, .maintenance⟩]
      | none => [⟨startDate, ltsDate, .current⟩, ⟨ltsDate, endDate, .active⟩]
    | none =>
      match cycle.support with
      | some supportDate =>
        [⟨startDate, supportDate, .active⟩, ⟨supportDate, endDate, .maintenance⟩]
      | none => [⟨startDate, endDate, .active⟩]

/-- `getLifecycleStage` (src/unnamed/part_007 lines 246-280). -/
def getLifecycleStage (cycle : EOLCycle) (startDate endDate now : Nat) : Stage :=
  if endDate < now then .eol
  else
    match cycle.lts with
    | some ltsDate =>
      match cycle.support with
      | some supportDate =>
        if now < ltsDate then .current
        else if now < supportDate then .active
        else .maintenance
      | none => if now < ltsDate then .current else .active
    | none =>
      match cycle.support with
      | some supportDate => if now < supportDate then .active else .maintenance
      | none => .active

/-! ## Catalog accessor (src/unnamed/part_007) -/

/-- `parseInt(part, 10) || 0` on the digit-only pieces produced by the
normalization in `compareVersions` (`NaN` on an empty piece becomes 0). -/
def parseIntOr0 (s : Str) : Nat :=
  let digits := s.takeWhile Char.isDigit
  digits.foldl (fun acc c => 10 * acc + (c.toNat - 48)) 0

/-- `v.replace(/[^\d.]/g, '').split('.')` mapped through `parseIntOr0`. -/
def normalizeVersion (v : Str) : List Nat :=
  ((v.filter (fun c => c.isDigit || c = '.')).splitOn '.').map parseIntOr0

/-- Zero-pad a component list to length `n` (the `while ... push(0)` loops). -/
def padZeros (l : List Nat) (n : Nat) : List Nat :=
  l ++ List.replicate (n - l.length) 0

/-- The component-wise comparison loop of `compareVersions`. -/
def cmpPartsLoop : List Nat → List Nat → Int
  | a :: as, b :: bs => if a > b then 1 else if a < b then -1 else cmpPartsLoop as bs
  | _, _ => 0

/-- `compareVersions` (src/unnamed/part_007 lines 361-384). -/
def compareVersions (v1 v2 : Str) : Int :=
  let p1 := normalizeVersion v1
  let p2 := normalizeVersion v2
  let n := max p1.length p2.length
  cmpPartsLoop (padZeros p1 n) (padZeros p2 n)

/-- Sort key of a valid cycle (`new Date(c.releaseDate).getTime()`; every
cycle reaching the sort has passed the `releaseDate` filter). -/
def releaseKey (c : EOLCycle) : Nat := c.releaseDate.getD 0

/-- The comparator `(a, b) => time(a) - time(b)` as the total preorder a
stable JavaScript sort realizes. -/
def releaseLE (a b : EOLCycle) : Prop := releaseKey a ≤ releaseKey b

instance : DecidableRel releaseLE := fun a b => Nat.decLe _ _

instance : IsTotal EOLCycle releaseLE := ⟨fun a b => Nat.le_total _ _⟩

instance : IsTrans EOLCycle releaseLE := ⟨fun _ _ _ => Nat.le_trans⟩

/-- The validity filter of `getRelevantCycles`:
`cycle.releaseDate && typeof cycle.eol === 'string'`. -/
def isValidCycle (c : EOLCycle) : Bool := c.releaseDate.isSome && c.eol.isSome

/-- The filtered list sorted ascending by release date (stable, like
`Array.prototype.sort` and like insertion sort). -/
def sortedValidCycles (cycles : List EOLCycle) : List EOLCycle :=
  List.insertionSort releaseLE (cycles.filter isValidCycle)

/-- `getRelevantCycles` (src/unnamed/part_007 lines 286-323).  The source
sorts `validCycles` in place and then reads the sorted array everywhere, so
every later use is `sortedValidCycles cycles`. -/
def getRelevantCycles (cycles : List EOLCycle) (currentVersion : Str) : List EOLCycle :=
  if cycles.isEmpty then []
  else if (cycles.filter isValidCycle).isEmpty then []
  else if currentVersion = [] ∨ trim currentVersion = [] then sortedValidCycles cycles
  else
    match (sortedValidCycles cycles).findIdx?
        (fun c => compareVersions c.cycle currentVersion ≥ 0) with
    | none => sortedValidCycles cycles
    | some currentIndex => (sortedValidCycles cycles).drop currentIndex

/-! ## Segment invariants (for the coverage claims) -/

/-- Adjacent segments share a boundary: each segment's `endD` is the next
segment's `start`. -/
def segChain : List Segment → Prop
  | s1 :: s2 :: rest => s1.endD = s2.start ∧ segChain (s2 :: rest)
  | _ => True

/-- Membership of instant `t` in the `i`-th segment under the claim's
convention: half-open `[start, endD)` except the last segment, closed. -/
def segMem (segs : List Segment) (i : Nat) (h : i < segs.length) (t : Nat) : Prop :=
  (segs.get ⟨i, h⟩).start ≤ t ∧
    (if i + 1 = segs.length then t ≤ (segs.get ⟨i, h⟩).endD
     else t < (segs.get ⟨i, h⟩).endD)

/-- The segments exactly cover `[a, b]`. -/
def segsCover (segs : List Segment) (a b : Nat) : Prop :=
  ∀ t, (a ≤ t ∧ t ≤ b) ↔ ∃ i, ∃ h : i < segs.length, segMem segs i h t

/-- No instant lies in two distinct segments. -/
def segsDisjoint (segs : List Segment) : Prop :=
  ∀ t i j, ∀ hi : i < segs.length, ∀ hj : j < segs.length,
    i ≠ j → segMem segs i hi t → segMem segs j hj t → False

/-- The date anchors actually used by the branch `calculateStages` takes,
in increasing order. -/
def anchorsOrdered (c : EOLCycle) (a b now : Nat) : Bool :=
  if b < now then a ≤ b
  else
    match c.lts with
    | some l =>
      match c.support with
      | some s => a ≤ l && l ≤ s && s ≤ b
      | none => a ≤ l && l ≤ b
    | none =>
      match c.support with
      | some s => a ≤ s && s ≤ b
      | none => a ≤ b

/-! ## Predicates used to state the claims -/

/-- Printable ASCII (the character universe of the round-trip claim). -/
def printableAscii (c : Char) : Bool := 32 ≤ c.toNat && c.toNat ≤ 126

/-- A field value the codec transports faithfully: non-empty printable ASCII,
not whitespace-only, and free of `%` and of the parentheses
`encodeURIComponent` fails to escape. -/
def safeField (s : Str) : Prop :=
  s ≠ [] ∧ (∀ c ∈ s, printableAscii c = true) ∧
  '%' ∉ s ∧ '(' ∉ s ∧ ')' ∉ s ∧ ∃ c ∈ s, c ≠ ' '

instance (s : Str) : Decidable (safeField s) := by
  unfold safeField; infer_instance

/-- Every name and version of the state is a safe field. -/
def safeState (st : URLState) : Prop :=
  ∀ sv ∈ st.services, safeField sv.name ∧
    ∀ t ∈ sv.technologies, safeField t.name ∧ safeField t.currentVersion

instance (st : URLState) : Decidable (safeState st) := by
  unfold safeState; infer_instance

/-- The two zero-padded component lists `compareVersions` compares. -/
def paddedParts (v w : Str) : List Nat × List Nat :=
  let p1 := normalizeVersion v
  let p2 := normalizeVersion w
  let n := max p1.length p2.length
  (padZeros p1 n, padZeros p2 n)

/-! ## Concrete data used by the scenario theorems and witnesses -/

/-- A state whose serialized form is far beyond the URL length limit. -/
def bigState : URLState :=
  ⟨1, [⟨("1".data), List.replicate 2100 'a', []⟩]⟩

/-- A small state well below the URL length limit. -/
def smallState : URLState :=
  ⟨1, [⟨("1".data), ("myapp".data),
        [⟨("1".data), ("python".data), ("3.9".data)⟩]⟩]⟩

/-- A state exercising the special characters `:`, `,` and space, which the
codec does escape. -/
def specialState : URLState :=
  ⟨1, [⟨("1".data), ("my app".data),
        [⟨("1".data), ("node.js".data), ("1:2, x".data)⟩]⟩]⟩

/-- The spec's LTS-with-support scenario cycle:
`{releaseDate:"2025-05-06", lts:"2025-10-28", support:"2026-10-20", eol:"2028-04-30"}`. -/
def nodeCycle : EOLCycle :=
  ⟨("24".data), some (mkDate 2025 5 6), some (mkDate 2028 4 30),
   some (mkDate 2026 10 20), some (mkDate 2025 10 28)⟩

/-- The spec's no-support LTS scenario cycle:
`{releaseDate:"2018-04-08", lts:"2023-07-18", eol:"2026-04-30"}`. -/
def ubuntuCycle : EOLCycle :=
  ⟨("18.04".data), some (mkDate 2018 4 8), some (mkDate 2026 4 30),
   none, some (mkDate 2023 7 18)⟩

/-- A cycle whose `eol` is the literal `false` but whose end would be
synthesizable from its date-valued `support` field. -/
def noEolCycle : EOLCycle :=
  ⟨("1.0".data), some (mkDate 2020 1 1), none, some (mkDate 2023 1 1), none⟩

/-- A cycle whose `lts` date lies after its effective end. -/
def lateLtsCycle : EOLCycle :=
  ⟨("9".data), some (mkDate 2020 1 1), some (mkDate 2028 1 1),
   none, some (mkDate 2030 1 1)⟩

def pyCycle38 : EOLCycle :=
  ⟨("3.8".data), some (mkDate 2019 10 14), some (mkDate 2024 10 14), none, none⟩

def pyCycle39 : EOLCycle :=
  ⟨("3.9".data), some (mkDate 2020 10 5), some (mkDate 2025 10 5), none, none⟩

def pyCycle310 : EOLCycle :=
  ⟨("3.10".data), some (mkDate 2021 10 4), some (mkDate 2026 10 4), none, none⟩

/-- An invalid catalog entry: `releaseDate` is the empty string. -/
def badCycle : EOLCycle :=
  ⟨("3.11".data), none, some (mkDate 2027 10 1), none, none⟩

/-- A state whose service name contains parentheses — printable characters the
round-trip claim explicitly includes. -/
def parenState : URLState :=
  ⟨1, [⟨("1".data), ("a(b)".data),
        [⟨("1".data), ("python".data), ("3.9".data)⟩]⟩]⟩

/-! ## C2: LTS-with-support classification -/

/-- C2 (confirmed).  For every cycle whose `lts` and `support` fields are
valid dates and whose effective end is not strictly before `now`,
`calculateStages` returns exactly the three segments `[start,lts)=current`,
`[lts,support)=active`, `[support,end]=maintenance`, and `getLifecycleStage`
returns the bucket containing `now`.  The bucket reading presupposes that the
buckets are disjoint, i.e. `lts ≤ support` (hypothesis `hls`); without it the
claim's three conditions would overlap contradictorily. -/
theorem c2_lts_support_classification
    (c : EOLCycle) (a b now l s : Nat)
    (hl : c.lts = some l) (hs : c.support = some s)
    (hb : ¬ b < now) (hls : l ≤ s) :
    calculateStages c a b now =
      [⟨a, l, .current⟩, ⟨l, s, .active⟩, ⟨s, b, .maintenance⟩] ∧
    (now < l → getLifecycleStage c a b now = .current) ∧
    (l ≤ now → now < s → getLifecycleStage c a b now = .active) ∧
    (s ≤ now → getLifecycleStage c a b now = .maintenance) := by
  simp only [calculateStages, getLifecycleStage, hl, hs, if_neg hb]
  refine ⟨trivial, fun h1 => by rw [if_pos h1],
    fun h1 h2 => by rw [if_neg (show ¬ now < l by omega), if_pos h2],
    fun h1 => by
      rw [if_neg (show ¬ now < l by omega), if_neg (show ¬ now < s by omega)]⟩

/-- C2 witness: the spec's literal scenario at now = 2026-02-15 is classified
`active` with the three expected segments. -/
theorem c2_lts_support_witness :
    calculateStages nodeCycle (mkDate 2025 5 6) (mkDate 2028 4 30) (mkDate 2026 2 15) =
      [⟨mkDate 2025 5 6, mkDate 2025 10 28, .current⟩,
       ⟨mkDate 2025 10 28, mkDate 2026 10 20, .active⟩,
       ⟨mkDate 2026 10 20, mkDate 2028 4 30, .maintenance⟩] ∧
    getLifecycleStage nodeCycle (mkDate 2025 5 6) (mkDate 2028 4 30) (mkDate 2026 2 15) =
      .active := by
  have h := c2_lts_support_classification nodeCycle (mkDate 2025 5 6) (mkDate 2028 4 30)
    (mkDate 2026 2 15) (mkDate 2025 10 28) (mkDate 2026 10 20) rfl rfl
    (by decide) (by decide)
  exact ⟨h.1, h.2.2.1 (by decide) (by decide)⟩

/-! ## C4: the no-support LTS scenario -/

/-- C4 counterexample.  The claim says the scenario cycle at now = 2026-02-15
is classified `maintenance` with segments `[current, maintenance]`; the code
classifies it `active` with segments `[current, active]` (the no-support LTS
branch never emits a maintenance segment). -/
theorem c4_scenario_counterexample :
    ¬ (getLifecycleStage ubuntuCycle (mkDate 2018 4 8) (mkDate 2026 4 30)
         (mkDate 2026 2 15) = .maintenance ∧
       (calculateStages ubuntuCycle (mkDate 2018 4 8) (mkDate 2026 4 30)
         (mkDate 2026 2 15)).map Segment.stage = [.current, .maintenance]) := by
  decide

/-- C4 (corrected).  The scenario cycle
`{releaseDate:"2018-04-08", lts:"2023-07-18", eol:"2026-04-30"}` (no support)
at now = 2026-02-15 is classified `active`, and decomposes into the two
segments `[current, active]` ( `[start,lts)=current`, `[lts,end]=active` ). -/
theorem c4_scenario_amended :
    getLifecycleStage ubuntuCycle (mkDate 2018 4 8) (mkDate 2026 4 30)
      (mkDate 2026 2 15) = .active ∧
    calculateStages ubuntuCycle (mkDate 2018 4 8) (mkDate 2026 4 30)
      (mkDate 2026 2 15) =
      [⟨mkDate 2018 4 8, mkDate 2023 7 18, .current⟩,
       ⟨mkDate 2023 7 18, mkDate 2026 4 30, .active⟩] := by
  decide

/-! ## C5: the validity filter of getRelevantCycles -/

/-- C5 counterexample.  A cycle with a valid `releaseDate`, `eol = false` and
a date-valued `support` field — i.e. one whose effective end is synthesizable —
is dropped by `getRelevantCycles`, not kept: the filter demands
`typeof cycle.eol === 'string'`. -/
theorem c5_eol_false_counterexample :
    getRelevantCycles [noEolCycle] [] = [] ∧
    noEolCycle.releaseDate = some (mkDate 2020 1 1) ∧
    noEolCycle.eol = none ∧
    noEolCycle.support = some (mkDate 2023 1 1) := by
  constructor
  · rfl
  · exact ⟨rfl, rfl, rfl⟩

/-! ## C7: synthetic id assignment -/

/-- C7 counterexample.  The strict decoder (src/lib/url-state.ts) does not
assign `tech-<i>-<j>` ids: decoding `a(b:1)` gives the technology the id
`a-b-0` (template `serviceName-techName-j`). -/
theorem c7_strict_id_counterexample :
    ∃ st, decodeURLState ("a(b:1)".data) = .ok st ∧
      st.services.map (fun sv => sv.technologies.map Technology.id) =
        [[("a-b-0".data)]] ∧
      ("a-b-0".data) ≠ ("tech-0-0".data) := by
  refine ⟨⟨1, [⟨("service-0".data), ("a".data),
    [⟨("a-b-0".data), ("b".data), ("1".data)⟩]⟩]⟩, rfl, rfl, by decide⟩

/-! ## C1: the round-trip law -/

/-- C1 counterexample.  `encodeURIComponent` does not escape parentheses, so a
service name containing them — a printable string the claim explicitly
covers — is garbled by the round trip: `a(b)` with one technology encodes to
`a(b)(python:3.9)`, which decodes to a service named `a` with a technology
named `b)(python`. -/
theorem c1_roundtrip_counterexample :
    encodeURLState parenState = .ok ("a(b)(python:3.9)".data) ∧
    ∃ st2, decodeURLState ("a(b)(python:3.9)".data) = .ok st2 ∧
      st2.services.map obsService ≠ parenState.services.map obsService := by
  refine ⟨rfl, ⟨1, [⟨("service-0".data), ("a".data),
    [⟨("a-b)(python-0".data), ("b)(python".data), ("3.9".data)⟩]⟩]⟩, rfl, by decide⟩

/-! ## C9: the version comparator -/

theorem padZeros_length (l : List Nat) (n : Nat) :
    (padZeros l n).length = max l.length n := by
  simp only [padZeros, List.length_append, List.length_replicate]
  omega

theorem cmpPartsLoop_eq_zero_iff :
    ∀ as bs : List Nat, as.length = bs.length → (cmpPartsLoop as bs = 0 ↔ as = bs) := by
  intro as
  induction as with
  | nil =>
    intro bs h
    cases bs with
    | nil => simp [cmpPartsLoop]
    | cons b bs => simp at h
  | cons a as ih =>
    intro bs h
    cases bs with
    | nil => simp at h
    | cons b bs =>
      simp only [List.length_cons, Nat.add_right_cancel_iff] at h
      simp only [cmpPartsLoop]
      rcases Nat.lt_trichotomy a b with hab | hab | hab
      · rw [if_neg (by omega), if_pos hab]
        constructor
        · intro h0; exact absurd h0 (by decide)
        · intro he; injection he with h1 h2; omega
      · subst hab
        rw [if_neg (by omega), if_neg (by omega)]
        rw [ih bs h]
        simp
      · rw [if_pos hab]
        constructor
        · intro h0; exact absurd h0 (by decide)
        · intro he; injection he with h1 h2; omega

theorem cmpPartsLoop_first_diff :
    ∀ (as bs : List Nat) (i x y : Nat),
      (∀ j, j < i → as[j]? = bs[j]?) →
      as[i]? = some x → bs[i]? = some y → x ≠ y →
      cmpPartsLoop as bs = if y < x then 1 else -1 := by
  intro as
  induction as with
  | nil => intro bs i x y _ hx; simp at hx
  | cons a as ih =>
    intro bs i x y hpre hx hy hxy
    cases bs with
    | nil => simp at hy
    | cons b bs =>
      cases i with
      | zero =>
        have hax : a = x := by simpa using hx
        have hby : b = y := by simpa using hy
        subst hax; subst hby
        simp only [cmpPartsLoop]
        rcases Nat.lt_trichotomy a b with h | h | h
        · rw [if_neg (show ¬ a > b by omega), if_pos h,
            if_neg (show ¬ b < a by omega)]
        · exact absurd h hxy
        · rw [if_pos (show a > b by omega), if_pos (show b < a by omega)]
      | succ i =>
        have h0 : a = b := by
          have := hpre 0 (Nat.succ_pos _)
          simpa using this
        subst h0
        simp only [cmpPartsLoop]
        rw [if_neg (show ¬ a > a by omega), if_neg (show ¬ a < a by omega)]
        exact ih bs i x y
          (fun j hj => by
            have := hpre (j + 1) (by omega)
            simpa using this)
          (by simpa using hx) (by simpa using hy) hxy

/-- C9 (confirmed).  `compareVersions` orders pure numeric dotted labels
numerically component-wise: the spec's three literal orderings hold, a pair
whose zero-padded component lists agree compares equal (`= 0`), and the first
unequal zero-padded component decides the sign. -/
theorem c9_version_comparator :
    compareVersions ("1.25".data) ("1.9".data) > 0 ∧
    compareVersions ("1.9".data) ("1.22".data) < 0 ∧
    compareVersions ("2.0".data) ("2.0".data) = 0 ∧
    (∀ v w : Str,
      (compareVersions v w = 0 ↔ (paddedParts v w).1 = (paddedParts v w).2)) ∧
    (∀ v w : Str, ∀ i x y : Nat,
      (∀ j, j < i → (paddedParts v w).1[j]? = (paddedParts v w).2[j]?) →
      (paddedParts v w).1[i]? = some x → (paddedParts v w).2[i]? = some y →
      x ≠ y →
      compareVersions v w = if y < x then 1 else -1) := by
  refine ⟨by decide, by decide, by decide, fun v w => ?_, fun v w i x y h1 h2 h3 h4 => ?_⟩
  · have hlen : (paddedParts v w).1.length = (paddedParts v w).2.length := by
      simp only [paddedParts, padZeros_length]
      omega
    exact cmpPartsLoop_eq_zero_iff _ _ hlen
  · exact cmpPartsLoop_first_diff _ _ i x y h1 h2 h3 h4

/-! ## C8: the URL length guard -/

/-- C8 (confirmed).  `encodeURLState` raises the oversize error exactly when
the full query-string form `?s=<encoded>` of the actual serialized string
(after per-field percent-encoding) exceeds `MAX_URL_LENGTH = 2048`
characters; any non-empty state at or below the limit encodes normally, and
the empty state short-circuits to the empty string. -/
theorem c8_url_length_guard (state : URLState) :
    (state.services = [] → encodeURLState state = .ok []) ∧
    (state.services ≠ [] →
      ((∃ msg, encodeURLState state = .error msg) ↔
        MAX_URL_LENGTH < (("?s=".data) ++ serializeServices state.services).length)) ∧
    (state.services ≠ [] →
      (("?s=".data) ++ serializeServices state.services).length ≤ MAX_URL_LENGTH →
      encodeURLState state = .ok (serializeServices state.services)) := by
  have hne : state.services ≠ [] → ¬ (state.services.isEmpty = true) := by
    simp [List.isEmpty_iff]
  refine ⟨fun h => ?_, fun h => ?_, fun h hlen => ?_⟩
  · unfold encodeURLState
    rw [if_pos (by simp [h])]
  · unfold encodeURLState
    rw [if_neg (hne h)]
    by_cases hlen :
        MAX_URL_LENGTH < (("?s=".data) ++ serializeServices state.services).length
    · rw [if_pos hlen]
      exact ⟨fun _ => hlen, fun _ => ⟨_, rfl⟩⟩
    · rw [if_neg hlen]
      constructor
      · rintro ⟨msg, hmsg⟩; cases hmsg
      · intro hgt; exact absurd hgt hlen
  · unfold encodeURLState
    rw [if_neg (hne h), if_neg (by omega)]

theorem any_replicate_false (n : Nat) (c : Char) (p : Char → Bool) (h : p c = false) :
    (List.replicate n c).any p = false := by
  induction n with
  | zero => rfl
  | succ n ih => simp [List.replicate_succ, h, ih]

theorem intercalate_singleton_list {α : Type} (sep x : List α) :
    List.intercalate sep [x] = x := by
  simp [List.intercalate]

theorem serializeServices_bigState :
    (serializeServices bigState.services).length = 2102 := by
  have hno : (List.replicate 2100 'a').any SPECIAL_CHARS = false :=
    any_replicate_false _ _ _ (by decide)
  have henc : encodeIfNeeded (List.replicate 2100 'a') = List.replicate 2100 'a' := by
    unfold encodeIfNeeded
    rw [if_neg (show ¬ ((List.replicate 2100 'a').any SPECIAL_CHARS = true) by
      rw [hno]; exact Bool.false_ne_true)]
  have hserv : bigState.services = [⟨("1".data), List.replicate 2100 'a', []⟩] := rfl
  unfold serializeServices
  rw [hserv, List.map_cons, List.map_nil, intercalate_singleton_list]
  unfold encodeService
  dsimp only
  rw [henc,
    show List.map encodeTech ([] : List Technology) = [] from rfl,
    show List.intercalate [','] ([] : List Str) = [] from rfl]
  simp only [List.length_append, List.length_cons, List.length_nil,
    List.length_replicate]

/-- C8 witness: a 2100-character service name overflows the guard, while
`myapp(python:3.9)` encodes normally. -/
theorem c8_url_length_witness :
    (∃ msg, encodeURLState bigState = .error msg) ∧
    encodeURLState smallState = .ok ("myapp(python:3.9)".data) := by
  constructor
  · apply ((c8_url_length_guard bigState).2.1 (by decide)).mpr
    rw [List.length_append, serializeServices_bigState]
    decide
  · exact (c8_url_length_guard smallState).2.2 (by decide) (by decide)

/-! ## C5 (amended) and C6: getRelevantCycles -/

theorem sortedValidCycles_nil_of_isEmpty {cycles : List EOLCycle}
    (h : (cycles.filter isValidCycle).isEmpty = true) :
    sortedValidCycles cycles = [] := by
  unfold sortedValidCycles
  rw [List.isEmpty_iff.mp h]
  rfl

theorem getRelevantCycles_eq (cycles : List EOLCycle) (v : Str) :
    getRelevantCycles cycles v =
      if v = [] ∨ trim v = [] then sortedValidCycles cycles
      else
        match (sortedValidCycles cycles).findIdx?
            (fun c => compareVersions c.cycle v ≥ 0) with
        | none => sortedValidCycles cycles
        | some i => (sortedValidCycles cycles).drop i := by
  unfold getRelevantCycles
  by_cases h1 : cycles.isEmpty
  · have hnil : sortedValidCycles cycles = [] := by
      unfold sortedValidCycles
      rw [List.isEmpty_iff.mp h1]
      rfl
    rw [if_pos h1, hnil]
    split <;> rfl
  · rw [if_neg h1]
    by_cases h2 : (cycles.filter isValidCycle).isEmpty
    · rw [if_pos h2, sortedValidCycles_nil_of_isEmpty h2]
      split <;> rfl
    · rw [if_neg h2]

/-- C5 (corrected, amended form).  `getRelevantCycles` keeps only cycles with
a truthy `releaseDate` and a string-valued (date) `eol`: every cycle it
returns has both.  In particular a cycle whose `eol` is `false` is dropped by
the filter even when an end would be synthesizable — the synthesis branch of
`convertToGanttData` runs only on cycles that already passed this filter. -/
theorem c5_relevant_cycles_valid (cycles : List EOLCycle) (v : Str) (c : EOLCycle)
    (h : c ∈ getRelevantCycles cycles v) :
    c.releaseDate.isSome ∧ c.eol.isSome := by
  have hf : c ∈ cycles.filter isValidCycle := by
    rw [getRelevantCycles_eq] at h
    by_cases h3 : v = [] ∨ trim v = []
    · rw [if_pos h3] at h
      exact (List.mem_insertionSort releaseLE).mp h
    · rw [if_neg h3] at h
      rcases hidx : (sortedValidCycles cycles).findIdx?
          (fun c => compareVersions c.cycle v ≥ 0) with _ | i
      · rw [hidx] at h
        exact (List.mem_insertionSort releaseLE).mp h
      · rw [hidx] at h
        exact (List.mem_insertionSort releaseLE).mp (List.mem_of_mem_drop h)
  have hv := List.of_mem_filter hf
  unfold isValidCycle at hv
  rw [Bool.and_eq_true] at hv
  exact ⟨hv.1, hv.2⟩

/-- C5 witness: a kept cycle of a concrete list indeed carries both fields. -/
theorem c5_relevant_cycles_witness :
    pyCycle39.releaseDate.isSome ∧ pyCycle39.eol.isSome :=
  c5_relevant_cycles_valid [pyCycle39, badCycle] [] pyCycle39 (by decide)

theorem findIdx?_eq_some_of_least {α : Type} (p : α → Bool) :
    ∀ (l : List α) (i : Nat) (hi : i < l.length),
      p (l.get ⟨i, hi⟩) = true →
      (∀ j, ∀ hj : j < l.length, j < i → ¬ p (l.get ⟨j, hj⟩) = true) →
      l.findIdx? p = some i := by
  intro l
  induction l with
  | nil => intro i hi; simp at hi
  | cons a l ih =>
    intro i hi hp hleast
    cases i with
    | zero =>
      have hpa : p a = true := by simpa using hp
      rw [List.findIdx?_cons, if_pos hpa]
    | succ i =>
      have hna : ¬ p a = true := hleast 0 (Nat.succ_pos _) (Nat.succ_pos _)
      rw [List.findIdx?_cons, if_neg hna, List.findIdx?_succ,
        ih i (by simpa using hi) (by simpa using hp)
          (fun j hj hji => by
            have := hleast (j + 1) (by simpa using hj) (by omega)
            simpa using this)]
      rfl

/-- C6 (confirmed).  `getRelevantCycles` returns a list sorted ascending by
release date; a blank `currentVersion` yields the whole filtered-sorted list;
otherwise the result is the suffix starting at the first (least-index) sorted
cycle whose version compares `≥ currentVersion`, and when no cycle compares
`≥` the entire filtered-sorted list is returned. -/
theorem c6_relevant_cycles_selection (cycles : List EOLCycle) (v : Str) :
    List.Sorted releaseLE (getRelevantCycles cycles v) ∧
    ((v = [] ∨ trim v = []) → getRelevantCycles cycles v = sortedValidCycles cycles) ∧
    (¬ (v = [] ∨ trim v = []) →
      ∀ i, ∀ hi : i < (sortedValidCycles cycles).length,
        compareVersions ((sortedValidCycles cycles).get ⟨i, hi⟩).cycle v ≥ 0 →
        (∀ j, ∀ hj : j < (sortedValidCycles cycles).length, j < i →
          ¬ compareVersions ((sortedValidCycles cycles).get ⟨j, hj⟩).cycle v ≥ 0) →
        getRelevantCycles cycles v = (sortedValidCycles cycles).drop i) ∧
    (¬ (v = [] ∨ trim v = []) →
      (∀ c ∈ sortedValidCycles cycles, compareVersions c.cycle v < 0) →
      getRelevantCycles cycles v = sortedValidCycles cycles) := by
  have hsorted : List.Sorted releaseLE (sortedValidCycles cycles) :=
    List.sorted_insertionSort releaseLE (cycles.filter isValidCycle)
  refine ⟨?_, fun h3 => ?_, fun h3 i hi hp hleast => ?_, fun h3 hall => ?_⟩
  · rw [getRelevantCycles_eq]
    by_cases h3 : v = [] ∨ trim v = []
    · rw [if_pos h3]; exact hsorted
    · rw [if_neg h3]
      rcases hidx : (sortedValidCycles cycles).findIdx?
          (fun c => compareVersions c.cycle v ≥ 0) with _ | i
      · rw [hidx]
        exact hsorted
      · rw [hidx]
        exact List.Pairwise.drop hsorted
  · rw [getRelevantCycles_eq, if_pos h3]
  · have hfind : (sortedValidCycles cycles).findIdx?
        (fun c => compareVersions c.cycle v ≥ 0) = some i := by
      apply findIdx?_eq_some_of_least _ _ i hi
      · simpa using hp
      · intro j hj hji
        simpa using hleast j hj hji
    rw [getRelevantCycles_eq, if_neg h3, hfind]
  · have hnone : (sortedValidCycles cycles).findIdx?
        (fun c => compareVersions c.cycle v ≥ 0) = none := by
      rw [List.findIdx?_eq_none_iff]
      intro c hc
      have := hall c hc
      simp only [decide_eq_false_iff_not]
      omega
    rw [getRelevantCycles_eq, if_neg h3, hnone]

/-- C6 witness: the spec's literal examples.  With `"3.9"` the suffix from
the first `≥` cycle is `[3.9, 3.10]`; with the absent `"3.7"` the first `≥`
cycle is `3.8`, so all three return; with `"99"` no cycle compares `≥` and
the fallback returns everything; a cycle with empty `releaseDate` is
excluded. -/
theorem c6_relevant_cycles_witness :
    getRelevantCycles [pyCycle38, pyCycle39, pyCycle310] ("3.9".data) =
      [pyCycle39, pyCycle310] ∧
    getRelevantCycles [pyCycle38, pyCycle39, pyCycle310] ("3.7".data) =
      [pyCycle38, pyCycle39, pyCycle310] ∧
    getRelevantCycles [pyCycle38, pyCycle39, pyCycle310] ("99".data) =
      [pyCycle38, pyCycle39, pyCycle310] ∧
    getRelevantCycles [pyCycle38, badCycle] [] = [pyCycle38] := by
  refine ⟨?_, ?_, ?_, ?_⟩
  · have h := (c6_relevant_cycles_selection [pyCycle38, pyCycle39, pyCycle310]
      ("3.9".data)).2.2.1 (by decide) 1 (by decide) (by decide) (by decide)
    exact h.trans (by decide)
  · have h := (c6_relevant_cycles_selection [pyCycle38, pyCycle39, pyCycle310]
      ("3.7".data)).2.2.1 (by decide) 0 (by decide) (by decide) (by decide)
    exact h.trans (by decide)
  · have h := (c6_relevant_cycles_selection [pyCycle38, pyCycle39, pyCycle310]
      ("99".data)).2.2.2 (by decide) (by decide)
    exact h.trans (by decide)
  · have h := (c6_relevant_cycles_selection [pyCycle38, badCycle] []).2.1
      (Or.inl rfl)
    exact h.trans (by decide)

/-! ## C3: segment coverage -/

theorem segsInvariants_one (a b : Nat) (st : Stage) (hab : a ≤ b) :
    segChain [⟨a, b, st⟩] ∧ (∀ s ∈ [(⟨a, b, st⟩ : Segment)], s.start ≤ s.endD) ∧
    segsCover [⟨a, b, st⟩] a b ∧ segsDisjoint [⟨a, b, st⟩] := by
  refine ⟨trivial, by simp [hab], ?_, ?_⟩
  · intro t
    constructor
    · rintro ⟨h1, h2⟩
      refine ⟨0, by simp, ?_⟩
      simp [segMem]
      omega
    · rintro ⟨i, hi, hm⟩
      have h0 : i = 0 := by simp at hi; omega
      subst h0
      simp [segMem] at hm
      omega
  · intro t i j hi hj hij hmi hmj
    simp at hi hj
    omega

theorem segsInvariants_two (a m b : Nat) (s1 s2 : Stage)
    (h1 : a ≤ m) (h2 : m ≤ b) :
    segChain [⟨a, m, s1⟩, ⟨m, b, s2⟩] ∧
    (∀ s ∈ [(⟨a, m, s1⟩ : Segment), ⟨m, b, s2⟩], s.start ≤ s.endD) ∧
    segsCover [⟨a, m, s1⟩, ⟨m, b, s2⟩] a b ∧
    segsDisjoint [⟨a, m, s1⟩, ⟨m, b, s2⟩] := by
  refine ⟨⟨rfl, trivial⟩, by simp [h1, h2], ?_, ?_⟩
  · intro t
    constructor
    · rintro ⟨ht1, ht2⟩
      by_cases hm : t < m
      · refine ⟨0, by simp, ?_⟩
        simp [segMem]
        omega
      · refine ⟨1, by simp, ?_⟩
        simp [segMem]
        omega
    · rintro ⟨i, hi, hm⟩
      have h0 : i = 0 ∨ i = 1 := by simp at hi; omega
      rcases h0 with h0 | h0 <;> subst h0 <;> simp [segMem] at hm <;> omega
  · intro t i j hi hj hij hmi hmj
    simp at hi hj
    have h0 : (i = 0 ∧ j = 1) ∨ (i = 1 ∧ j = 0) := by omega
    rcases h0 with ⟨hi0, hj0⟩ | ⟨hi0, hj0⟩ <;> subst hi0 <;> subst hj0 <;>
      simp [segMem] at hmi hmj <;> omega

theorem segsInvariants_three (a m p b : Nat) (s1 s2 s3 : Stage)
    (h1 : a ≤ m) (h2 : m ≤ p) (h3 : p ≤ b) :
    segChain [⟨a, m, s1⟩, ⟨m, p, s2⟩, ⟨p, b, s3⟩] ∧
    (∀ s ∈ [(⟨a, m, s1⟩ : Segment), ⟨m, p, s2⟩, ⟨p, b, s3⟩], s.start ≤ s.endD) ∧
    segsCover [⟨a, m, s1⟩, ⟨m, p, s2⟩, ⟨p, b, s3⟩] a b ∧
    segsDisjoint [⟨a, m, s1⟩, ⟨m, p, s2⟩, ⟨p, b, s3⟩] := by
  refine ⟨⟨rfl, rfl, trivial⟩, by simp [h1, h2, h3], ?_, ?_⟩
  · intro t
    constructor
    · rintro ⟨ht1, ht2⟩
      by_cases hm : t < m
      · refine ⟨0, by simp, ?_⟩
        simp [segMem]
        omega
      · by_cases hp : t < p
        · refine ⟨1, by simp, ?_⟩
          simp [segMem]
          omega
        · refine ⟨2, by simp, ?_⟩
          simp [segMem]
          omega
    · rintro ⟨i, hi, hm⟩
      have h0 : i = 0 ∨ i = 1 ∨ i = 2 := by simp at hi; omega
      rcases h0 with h0 | h0 | h0 <;> subst h0 <;> simp [segMem] at hm <;> omega
  · intro t i j hi hj hij hmi hmj
    simp at hi hj
    have h0 : (i = 0 ∨ i = 1 ∨ i = 2) ∧ (j = 0 ∨ j = 1 ∨ j = 2) := by omega
    rcases h0.1 with hi0 | hi0 | hi0 <;> rcases h0.2 with hj0 | hj0 | hj0 <;>
      subst hi0 <;> subst hj0 <;> first
        | exact hij rfl
        | (simp [segMem] at hmi hmj; omega)

/-- C3 counterexample.  `calculateStages` does not validate the ordering of
the date anchors: a cycle whose `lts` date (2030-01-01) lies after its
effective end (2028-01-01), evaluated while not yet expired, yields a second
segment running backwards (start 2030 > end 2028), so the segments are not
monotone and their union is not `[releaseDate, effectiveEnd]` (the instant
2029-01-01 is covered although it lies outside the range). -/
theorem c3_coverage_counterexample :
    calculateStages lateLtsCycle (mkDate 2020 1 1) (mkDate 2028 1 1) (mkDate 2025 1 1) =
      [⟨mkDate 2020 1 1, mkDate 2030 1 1, .current⟩,
       ⟨mkDate 2030 1 1, mkDate 2028 1 1, .active⟩] ∧
    ¬ (∀ s ∈ calculateStages lateLtsCycle (mkDate 2020 1 1) (mkDate 2028 1 1)
          (mkDate 2025 1 1), s.start ≤ s.endD) ∧
    ¬ segsCover
        (calculateStages lateLtsCycle (mkDate 2020 1 1) (mkDate 2028 1 1)
          (mkDate 2025 1 1))
        (mkDate 2020 1 1) (mkDate 2028 1 1) := by
  refine ⟨rfl, ?_, ?_⟩
  · intro hall
    have := hall ⟨mkDate 2030 1 1, mkDate 2028 1 1, .active⟩ (by decide)
    exact absurd this (by decide)
  · intro hcov
    have h := (hcov (mkDate 2029 1 1)).mpr ⟨0, by decide, ?side⟩
    · exact absurd h.2 (by decide)
    case side =>
      constructor
      · decide
      · rw [if_neg (by decide)]
        decide

/-- C3 (corrected, amended form).  For every cycle whose date anchors used by
the taken branch are ordered (`anchorsOrdered`: releaseDate ≤ lts ≤ support ≤
effectiveEnd, as applicable), the returned segment list is non-empty, starts
at the release date, ends at the effective end, is chain-contiguous (each
segment's end is the next segment's start), has monotone boundaries, covers
exactly `[releaseDate, effectiveEnd]` (half-open segments, last closed), and
is non-overlapping.  Without the ordering hypothesis the claim fails
(`c3_coverage_counterexample`). -/
theorem c3_segment_coverage (c : EOLCycle) (a b now : Nat)
    (hord : anchorsOrdered c a b now = true) :
    calculateStages c a b now ≠ [] ∧
    (calculateStages c a b now).head?.map Segment.start = some a ∧
    (calculateStages c a b now).getLast?.map Segment.endD = some b ∧
    segChain (calculateStages c a b now) ∧
    (∀ s ∈ calculateStages c a b now, s.start ≤ s.endD) ∧
    segsCover (calculateStages c a b now) a b ∧
    segsDisjoint (calculateStages c a b now) := by
  unfold anchorsOrdered at hord
  unfold calculateStages
  by_cases hb : b < now
  · rw [if_pos hb] at hord
    rw [if_pos hb]
    have h := segsInvariants_one a b .eol (of_decide_eq_true hord)
    exact ⟨by simp, rfl, rfl, h.1, h.2.1, h.2.2.1, h.2.2.2⟩
  · rw [if_neg hb] at hord
    rw [if_neg hb]
    rcases hl : c.lts with _ | l <;> rcases hs : c.support with _ | s <;>
      simp only [hl, hs, Bool.and_eq_true, decide_eq_true_eq] at hord ⊢
    · have h := segsInvariants_one a b .active hord
      exact ⟨by simp, rfl, rfl, h.1, h.2.1, h.2.2.1, h.2.2.2⟩
    · have h := segsInvariants_two a s b .active .maintenance hord.1 hord.2
      exact ⟨by simp, rfl, rfl, h.1, h.2.1, h.2.2.1, h.2.2.2⟩
    · have h := segsInvariants_two a l b .current .active hord.1 hord.2
      exact ⟨by simp, rfl, rfl, h.1, h.2.1, h.2.2.1, h.2.2.2⟩
    · have h := segsInvariants_three a l s b .current .active .maintenance
        hord.1.1 hord.1.2 hord.2
      exact ⟨by simp, rfl, rfl, h.1, h.2.1, h.2.2.1, h.2.2.2⟩

/-- C3 witness: the invariants at the spec's LTS-with-support scenario. -/
theorem c3_segment_coverage_witness :
    segChain (calculateStages nodeCycle (mkDate 2025 5 6) (mkDate 2028 4 30)
      (mkDate 2026 2 15)) ∧
    segsCover (calculateStages nodeCycle (mkDate 2025 5 6) (mkDate 2028 4 30)
      (mkDate 2026 2 15)) (mkDate 2025 5 6) (mkDate 2028 4 30) := by
  have h := c3_segment_coverage nodeCycle (mkDate 2025 5 6) (mkDate 2028 4 30)
    (mkDate 2026 2 15) (by decide)
  exact ⟨h.2.2.2.1, h.2.2.2.2.2.1⟩

/-! ## C7 (amended): synthetic ids of the lenient decoder -/

theorem lenientTechs_id :
    ∀ (pieces : List Str) (si i : Nat) (ts : List Technology),
      lenientTechs si pieces i = .ok ts →
      ∀ m, ∀ hm : m < ts.length,
        ∃ k, i + m ≤ k ∧ (ts.get ⟨m, hm⟩).id = mkTechId si k := by
  intro pieces
  induction pieces with
  | nil =>
    intro si i ts h m hm
    simp only [lenientTechs, Except.ok.injEq] at h
    subst h
    simp at hm
  | cons piece rest ih =>
    intro si i ts h m hm
    simp only [lenientTechs] at h
    by_cases hp : piece = []
    · rw [if_pos hp] at h
      obtain ⟨k, hk, hid⟩ := ih si (i + 1) ts h m hm
      exact ⟨k, by omega, hid⟩
    · rw [if_neg hp] at h
      rcases hc : idxOf? ':' piece with _ | ci
      · rw [hc] at h
        dsimp only at h
        obtain ⟨k, hk, hid⟩ := ih si (i + 1) ts h m hm
        exact ⟨k, by omega, hid⟩
      · rw [hc] at h
        dsimp only at h
        rcases hd1 : decodeIfNeeded (jsSubstring piece 0 ci) with _ | techName
        · rw [hd1] at h
          dsimp only at h
          simp at h
        · rw [hd1] at h
          rcases hd2 : decodeIfNeeded (piece.drop (ci + 1)) with _ | version
          · rw [hd2] at h
            dsimp only at h
            simp at h
          · rw [hd2] at h
            dsimp only at h
            by_cases hnv : techName = [] ∨ version = []
            · rw [if_pos hnv] at h
              obtain ⟨k, hk, hid⟩ := ih si (i + 1) ts h m hm
              exact ⟨k, by omega, hid⟩
            · rw [if_neg hnv] at h
              cases hrest : lenientTechs si rest (i + 1) with
              | error e =>
                rw [hrest] at h
                simp [Bind.bind, Except.bind] at h
              | ok restT =>
                rw [hrest] at h
                simp only [Bind.bind, Except.bind, Except.ok.injEq] at h
                subst h
                cases m with
                | zero => exact ⟨i, by omega, rfl⟩
                | succ m =>
                  obtain ⟨k, hk, hid⟩ := ih si (i + 1) restT hrest m
                    (by simpa using hm)
                  exact ⟨k, by omega, hid⟩

theorem lenientServices_id :
    ∀ (segs : List Str) (si : Nat) (svs : List Service),
      lenientServices segs si = .ok svs →
      ∀ n, ∀ hn : n < svs.length,
        (svs.get ⟨n, hn⟩).id = mkServiceId (si + n) ∧
        ∀ m, ∀ hm : m < (svs.get ⟨n, hn⟩).technologies.length,
          ∃ k, m ≤ k ∧
            ((svs.get ⟨n, hn⟩).technologies.get ⟨m, hm⟩).id = mkTechId (si + n) k := by
  intro segs
  induction segs with
  | nil =>
    intro si svs h n hn
    simp only [lenientServices, Except.ok.injEq] at h
    subst h
    simp at hn
  | cons seg rest ih =>
    intro si svs h n hn
    simp only [lenientServices] at h
    by_cases hseg : seg = []
    · rw [if_pos hseg] at h
      exact ih si svs h n hn
    · rw [if_neg hseg] at h
      rcases hp : lenientParseSegment seg with _ | pr
      · rw [hp] at h
        dsimp only at h
        exact ih si svs h n hn
      · rw [hp] at h
        obtain ⟨nameEnc, techsStr⟩ := pr
        dsimp only at h
        rcases hd : decodeIfNeeded nameEnc with _ | serviceName
        · rw [hd] at h
          dsimp only at h
          simp at h
        · rw [hd] at h
          dsimp only at h
          by_cases hsn : serviceName = []
          · rw [if_pos hsn] at h
            exact ih si svs h n hn
          · rw [if_neg hsn] at h
            by_cases ht : techsStr ≠ []
            · rw [if_pos ht] at h
              cases htec : lenientTechs si (techsStr.splitOn ',') 0 with
              | error e =>
                rw [htec] at h
                simp [Bind.bind, Except.bind] at h
              | ok techs =>
                rw [htec] at h
                simp only [Bind.bind, Except.bind] at h
                cases hrest : lenientServices rest (si + 1) with
                | error e =>
                  rw [hrest] at h
                  simp [Except.bind] at h
                | ok restS =>
                  rw [hrest] at h
                  simp only [Except.bind, Except.ok.injEq] at h
                  subst h
                  cases n with
                  | zero =>
                    refine ⟨rfl, fun m hm => ?_⟩
                    obtain ⟨k, hk, hid⟩ := lenientTechs_id _ si 0 techs htec m hm
                    exact ⟨k, by omega, hid⟩
                  | succ n =>
                    have hrec := ih (si + 1) restS hrest n (by simpa using hn)
                    have harith : si + 1 + n = si + (n + 1) := by omega
                    refine ⟨?_, fun m hm => ?_⟩
                    · have h1 := hrec.1
                      rw [harith] at h1
                      exact h1
                    · obtain ⟨k, hk, hid⟩ := hrec.2 m hm
                      rw [harith] at hid
                      exact ⟨k, hk, hid⟩
            · rw [if_neg ht] at h
              simp only [Bind.bind, Except.bind] at h
              cases hrest : lenientServices rest (si + 1) with
              | error e =>
                rw [hrest] at h
                simp [Except.bind] at h
              | ok restS =>
                rw [hrest] at h
                simp only [Except.bind, Except.ok.injEq] at h
                subst h
                cases n with
                | zero =>
                  refine ⟨rfl, fun m hm => ?_⟩
                  simp at hm
                | succ n =>
                  have hrec := ih (si + 1) restS hrest n (by simpa using hn)
                  have harith : si + 1 + n = si + (n + 1) := by omega
                  refine ⟨?_, fun m hm => ?_⟩
                  · have h1 := hrec.1
                    rw [harith] at h1
                    exact h1
                  · obtain ⟨k, hk, hid⟩ := hrec.2 m hm
                    rw [harith] at hid
                    exact ⟨k, hk, hid⟩

/-- C7 (corrected, amended form).  The lenient decoder (src/unnamed/part_008)
never reads ids from the URL text: every successfully decoded state gives the
i-th resulting Service the id `service-<i>`, and each of its technologies an
id `tech-<i>-<k>` where `k` is its position in the comma-split technology
list (`k` is at least the technology's result position, and equals it exactly
when no malformed entry was skipped).  The strict decoder of
src/lib/url-state.ts instead assigns `<serviceName>-<techName>-<j>`
(`c7_strict_id_counterexample`). -/
theorem c7_lenient_synthetic_ids (encoded : Str) (st : URLState)
    (h : decodeURLStateLenient encoded = .ok st) :
    ∀ n, ∀ hn : n < st.services.length,
      (st.services.get ⟨n, hn⟩).id = mkServiceId n ∧
      ∀ m, ∀ hm : m < (st.services.get ⟨n, hn⟩).technologies.length,
        ∃ k, m ≤ k ∧
          ((st.services.get ⟨n, hn⟩).technologies.get ⟨m, hm⟩).id = mkTechId n k := by
  unfold decodeURLStateLenient at h
  by_cases he : encoded = [] ∨ trim encoded = []
  · rw [if_pos he] at h
    injection h with h
    subst h
    intro n hn
    simp at hn
  · rw [if_neg he] at h
    cases hrec : lenientServices ((trim encoded).splitOn ';') 0 with
    | error e =>
      rw [hrec] at h
      simp [Bind.bind, Except.bind] at h
    | ok svs =>
      rw [hrec] at h
      simp only [Bind.bind, Except.bind, Except.ok.injEq] at h
      subst h
      intro n hn
      have hres := lenientServices_id _ 0 svs hrec n hn
      simpa using hres

/-- C7 witness: decoding `a(b:1);bad;c(x:2,y,z:3)` leniently keeps two
services with ids `service-0`, `service-1`; the malformed entry `y` of the
second service is skipped, so its kept technologies carry the split positions
0 and 2 (`tech-1-0`, `tech-1-2`). -/
theorem c7_lenient_ids_witness :
    (∃ st, decodeURLStateLenient ("a(b:1);bad;c(x:2,y,z:3)".data) = .ok st ∧
      ∀ n, ∀ hn : n < st.services.length,
        (st.services.get ⟨n, hn⟩).id = mkServiceId n) ∧
    decodeURLStateLenient ("a(b:1);bad;c(x:2,y,z:3)".data) =
      .ok ⟨1, [⟨mkServiceId 0, ("a".data), [⟨mkTechId 0 0, ("b".data), ("1".data)⟩]⟩,
               ⟨mkServiceId 1, ("c".data),
                [⟨mkTechId 1 0, ("x".data), ("2".data)⟩,
                 ⟨mkTechId 1 2, ("z".data), ("3".data)⟩]⟩]⟩ := by
  constructor
  · refine ⟨⟨1, [⟨mkServiceId 0, ("a".data), [⟨mkTechId 0 0, ("b".data), ("1".data)⟩]⟩,
               ⟨mkServiceId 1, ("c".data),
                [⟨mkTechId 1 0, ("x".data), ("2".data)⟩,
                 ⟨mkTechId 1 2, ("z".data), ("3".data)⟩]⟩]⟩, rfl, ?_⟩
    intro n hn
    exact (c7_lenient_synthetic_ids (("a(b:1);bad;c(x:2,y,z:3)".data)) _ rfl n hn).1
  · rfl

/-! ## Character-class lemmas for the codec proofs -/

theorem special_cases {c : Char} (h : SPECIAL_CHARS c = true) :
    c = ':' ∨ c = ';' ∨ c = ',' ∨ c = '(' ∨ c = ')' ∨ c = ' ' := by
  have h2 := h
  simp only [SPECIAL_CHARS, Bool.or_eq_true, decide_eq_true_eq] at h2
  tauto

theorem ws_cases {c : Char} (h : isJsWhitespace c = true) :
    c = ' ' ∨ c = '\t' ∨ c = '\n' ∨ c = '\r' ∨ c = Char.ofNat 11 ∨ c = Char.ofNat 12 := by
  have h2 := h
  simp only [isJsWhitespace, Bool.or_eq_true, decide_eq_true_eq] at h2
  tauto

/-- A printable non-special character is not whitespace. -/
theorem printable_not_special_not_ws {c : Char}
    (h1 : printableAscii c = true) (h2 : SPECIAL_CHARS c = false) :
    isJsWhitespace c = false := by
  by_contra h
  rcases ws_cases (Bool.of_not_eq_false h) with h3 | h3 | h3 | h3 | h3 | h3 <;>
    subst h3 <;> revert h1 h2 <;> decide

/-- A printable non-space character is not whitespace. -/
theorem printable_ne_space_not_ws {c : Char}
    (h1 : printableAscii c = true) (h2 : c ≠ ' ') :
    isJsWhitespace c = false := by
  by_contra h
  rcases ws_cases (Bool.of_not_eq_false h) with h3 | h3 | h3 | h3 | h3 | h3 <;>
    subst h3 <;> first
      | exact h2 rfl
      | exact absurd h1 (by decide)

/-- An URI-unreserved character other than the parentheses is not special. -/
theorem unreserved_not_special {c : Char} (hu : uriUnreserved c = true)
    (hp1 : c ≠ '(') (hp2 : c ≠ ')') : SPECIAL_CHARS c = false := by
  by_contra h
  rcases special_cases (Bool.of_not_eq_false h) with h3 | h3 | h3 | h3 | h3 | h3 <;>
    subst h3 <;> first
      | exact hp1 rfl
      | exact hp2 rfl
      | exact absurd hu (by decide)

/-- An URI-unreserved character is not whitespace. -/
theorem unreserved_not_ws {c : Char} (hu : uriUnreserved c = true) :
    isJsWhitespace c = false := by
  by_contra h
  rcases ws_cases (Bool.of_not_eq_false h) with h3 | h3 | h3 | h3 | h3 | h3 <;>
    subst h3 <;> exact absurd hu (by decide)

/-- A special character other than the parentheses is escaped by
`encodeURIComponent`. -/
theorem special_not_unreserved {c : Char} (hs : SPECIAL_CHARS c = true)
    (hp1 : c ≠ '(') (hp2 : c ≠ ')') : uriUnreserved c = false := by
  rcases special_cases hs with h3 | h3 | h3 | h3 | h3 | h3 <;>
    subst h3 <;> first
      | exact absurd rfl hp1
      | exact absurd rfl hp2
      | decide

/-- What a non-special character cannot be. -/
theorem special_false_ne {c : Char} (h : SPECIAL_CHARS c = false) :
    c ≠ ':' ∧ c ≠ ';' ∧ c ≠ ',' ∧ c ≠ '(' ∧ c ≠ ')' ∧ c ≠ ' ' := by
  refine ⟨?_, ?_, ?_, ?_, ?_, ?_⟩ <;> intro hc <;> subst hc <;>
    exact absurd h (by decide)

theorem hexDigitChar_classes :
    ∀ k, k < 16 → SPECIAL_CHARS (hexDigitChar k) = false ∧
      isJsWhitespace (hexDigitChar k) = false ∧ hexDigitChar k ≠ '%' := by
  decide

theorem hexVal_hexDigitChar : ∀ k, k < 16 → hexVal (hexDigitChar k) = some k := by
  decide

/-! ## Parsing helper lemmas -/

theorem dropWhile_eq_self_of_head {p : Char → Bool} :
    ∀ s : Str, (∀ c, s.head? = some c → p c = false) → s.dropWhile p = s := by
  intro s h
  cases s with
  | nil => rfl
  | cons a s =>
    rw [List.dropWhile_cons, if_neg]
    simp [h a rfl]

/-- `trim` is the identity on a string whose two ends are not whitespace. -/
theorem trim_eq_self_of_ends (s : Str)
    (h1 : ∀ c, s.head? = some c → isJsWhitespace c = false)
    (h2 : ∀ c, s.getLast? = some c → isJsWhitespace c = false) :
    trim s = s := by
  unfold trim
  rw [dropWhile_eq_self_of_head s h1]
  rw [dropWhile_eq_self_of_head s.reverse
    (fun c hc => h2 c (by rwa [List.head?_reverse] at hc))]
  exact List.reverse_reverse s

/-- `trim` is the identity on a string with no whitespace at all. -/
theorem trim_eq_self_of_all (s : Str)
    (h : ∀ c ∈ s, isJsWhitespace c = false) : trim s = s := by
  refine trim_eq_self_of_ends s (fun c hc => h c ?_) (fun c hc => h c ?_)
  · exact List.mem_of_mem_head? hc
  · exact List.mem_of_mem_getLast? hc

theorem trim_nil : trim [] = [] := rfl

/-- A trimmed-empty string is all whitespace. -/
theorem all_ws_of_trim_eq_nil {s : Str} (h : trim s = []) :
    ∀ c ∈ s, isJsWhitespace c = true := by
  unfold trim at h
  rw [List.reverse_eq_nil_iff, List.dropWhile_eq_nil_iff] at h
  intro c hc
  rcases List.mem_append.mp
      ((List.takeWhile_append_dropWhile isJsWhitespace s) ▸ hc) with hm | hm
  · exact List.mem_takeWhile_imp hm
  · exact h c (List.mem_reverse.mpr hm)

theorem trim_ne_nil_of_exists {s : Str} (h : ∃ c ∈ s, isJsWhitespace c = false) :
    trim s ≠ [] := by
  intro hnil
  obtain ⟨c, hc, hcw⟩ := h
  rw [all_ws_of_trim_eq_nil hnil c hc] at hcw
  cases hcw

/-- `trim` of an all-whitespace string is empty. -/
theorem trim_eq_nil_of_all_ws {s : Str} (h : ∀ c ∈ s, isJsWhitespace c = true) :
    trim s = [] := by
  unfold trim
  rw [List.dropWhile_eq_nil_iff.mpr h]
  rfl

/-- First occurrence of a separator after a clean prefix. -/
theorem findIdx?_append_cons (p : Char → Bool) :
    ∀ (l1 : Str) (c : Char) (l2 : Str), (∀ x ∈ l1, p x = false) → p c = true →
      (l1 ++ c :: l2).findIdx? p = some l1.length := by
  intro l1
  induction l1 with
  | nil =>
    intro c l2 _ hc
    simpa [List.findIdx?_cons] using hc
  | cons a l1 ih =>
    intro c l2 h hc
    rw [List.cons_append, List.findIdx?_cons,
      if_neg (by simp [h a (List.mem_cons_self a l1)]), List.findIdx?_succ,
      ih c l2 (fun x hx => h x (List.mem_cons_of_mem a hx)) hc]
    rfl

theorem idxOf?_append_cons (c : Char) (l1 l2 : Str) (h : c ∉ l1) :
    idxOf? c (l1 ++ c :: l2) = some l1.length := by
  unfold idxOf?
  exact findIdx?_append_cons _ l1 c l2
    (fun x hx => by
      simp only [beq_eq_false_iff_ne, ne_eq]
      intro hxc
      exact h (hxc ▸ hx))
    (by simp)

theorem lastIdxOf?_append_cons (c : Char) (l1 l2 : Str) (h : c ∉ l2) :
    lastIdxOf? c (l1 ++ c :: l2) = some l1.length := by
  unfold lastIdxOf?
  have hrev : (l1 ++ c :: l2).reverse = l2.reverse ++ c :: l1.reverse := by
    simp
  rw [hrev, idxOf?_append_cons c l2.reverse l1.reverse
    (fun hc => h (List.mem_reverse.mp hc))]
  dsimp only
  have hlen : (l1 ++ c :: l2).length = l1.length + 1 + l2.length := by
    rw [List.length_append, List.length_cons]
    omega
  rw [List.length_reverse, hlen]
  congr 1
  omega

theorem jsSubstring_zero (s : Str) (b : Nat) : jsSubstring s 0 b = s.take b := by
  unfold jsSubstring
  rw [Nat.max_eq_right (Nat.zero_le b), Nat.min_eq_left (Nat.zero_le b)]
  exact List.drop_zero _

theorem drop_append_cons (l1 : Str) (x : Char) (l2 : Str) :
    (l1 ++ x :: l2).drop (l1.length + 1) = l2 := by
  rw [show l1 ++ x :: l2 = (l1 ++ [x]) ++ l2 by simp,
    show l1.length + 1 = (l1 ++ [x]).length by simp]
  exact List.drop_left _ _

/-- Extracting the technology-list substring of a service segment. -/
theorem jsSubstring_segment (l1 T : Str) :
    jsSubstring (l1 ++ '(' :: T ++ [')']) (l1.length + 1)
      ((l1 ++ '(' :: T ++ [')']).length - 1) = T := by
  have hlen : (l1 ++ '(' :: T ++ [')']).length = l1.length + 1 + T.length + 1 := by
    simp
    omega
  unfold jsSubstring
  rw [hlen]
  have h1 : l1.length + 1 + T.length + 1 - 1 = l1.length + 1 + T.length := by omega
  rw [h1, Nat.max_eq_right (by omega), Nat.min_eq_left (by omega)]
  have h2 : (l1 ++ '(' :: T ++ [')']).take (l1.length + 1 + T.length) =
      l1 ++ '(' :: T := by
    rw [show l1 ++ '(' :: T ++ [')'] = (l1 ++ '(' :: T) ++ [')'] by simp,
      List.take_left' (by simp; omega)]
  rw [h2, show l1 ++ '(' :: T = (l1 ++ ['(']) ++ T by simp,
    List.drop_left' (by simp)]

theorem intercalate_cons_cons {α : Type} (sep x y : List α) (zs : List (List α)) :
    List.intercalate sep (x :: y :: zs) = x ++ sep ++ List.intercalate sep (y :: zs) := by
  simp [List.intercalate, List.flatten_cons, List.append_assoc]

theorem mem_of_mem_intercalate (sep : Str) :
    ∀ (xs : List Str) (c : Char), c ∈ List.intercalate sep xs →
      c ∈ sep ∨ ∃ p ∈ xs, c ∈ p := by
  intro xs
  induction xs with
  | nil => intro c hc; simp [List.intercalate] at hc
  | cons x xs ih =>
    intro c hc
    cases xs with
    | nil =>
      rw [intercalate_singleton_list] at hc
      exact Or.inr ⟨x, List.mem_cons_self x [], hc⟩
    | cons y zs =>
      rw [intercalate_cons_cons] at hc
      rcases List.mem_append.mp hc with hm | hm
      · rcases List.mem_append.mp hm with hm2 | hm2
        · exact Or.inr ⟨x, List.mem_cons_self x _, hm2⟩
        · exact Or.inl hm2
      · rcases ih c hm with hm2 | ⟨p, hp, hcp⟩
        · exact Or.inl hm2
        · exact Or.inr ⟨p, List.mem_cons_of_mem x hp, hcp⟩

theorem append_cons_ne_nil (l1 : Str) (x : Char) (l2 : Str) :
    l1 ++ x :: l2 ≠ [] := by
  cases l1 <;> simp

/-! ## Percent-codec round-trip lemmas -/

theorem decodeURIComponent_cons_ne (c : Char) (rest : Str) (hc : ¬ c = '%') :
    decodeURIComponent (c :: rest) = (decodeURIComponent rest).map (fun t => c :: t) := by
  rw [decodeURIComponent.eq_def]
  dsimp only
  rw [if_neg hc]

theorem decodeURIComponent_percent (h l : Char) (rest2 : Str) :
    decodeURIComponent ('%' :: h :: l :: rest2) =
      match hexVal h, hexVal l with
      | some hi, some lo =>
        if 16 * hi + lo < 128 then
          (decodeURIComponent rest2).map (fun t => Char.ofNat (16 * hi + lo) :: t)
        else none
      | _, _ => none := by
  rw [decodeURIComponent.eq_def]
  dsimp only
  rw [if_pos rfl]

theorem decode_encode_uri :
    ∀ s : Str, (∀ c ∈ s, c.toNat < 128) →
      decodeURIComponent (encodeURIComponent s) = some s := by
  intro s
  induction s with
  | nil => intro _; rfl
  | cons c s ih =>
    intro h
    have hc : c.toNat < 128 := h c (List.mem_cons_self c s)
    have ihs := ih (fun x hx => h x (List.mem_cons_of_mem c hx))
    simp only [encodeURIComponent]
    by_cases hu : uriUnreserved c = true
    · rw [if_pos hu]
      have hcp : ¬ c = '%' := by
        intro hcp
        subst hcp
        exact absurd hu (by decide)
      show decodeURIComponent (c :: encodeURIComponent s) = some (c :: s)
      rw [decodeURIComponent_cons_ne c _ hcp, ihs]
      rfl
    · rw [if_neg hu]
      show decodeURIComponent ('%' :: hexDigitChar (c.toNat / 16) ::
        hexDigitChar (c.toNat % 16) :: encodeURIComponent s) = some (c :: s)
      rw [decodeURIComponent_percent,
        hexVal_hexDigitChar (c.toNat / 16) (by omega),
        hexVal_hexDigitChar (c.toNat % 16) (by omega)]
      dsimp only
      have hval : 16 * (c.toNat / 16) + c.toNat % 16 = c.toNat := by omega
      rw [hval, if_pos hc, ihs]
      simp [Char.ofNat_toNat]

theorem percent_mem_encodeURIComponent :
    ∀ s : Str, (∃ c ∈ s, SPECIAL_CHARS c = true) → '(' ∉ s → ')' ∉ s →
      '%' ∈ encodeURIComponent s := by
  intro s
  induction s with
  | nil => rintro ⟨c, hc, _⟩ _ _; cases hc
  | cons a s ih =>
    rintro ⟨c, hc, hcs⟩ hp1 hp2
    simp only [encodeURIComponent]
    rcases List.mem_cons.mp hc with hca | hcs'
    · subst hca
      have hu : uriUnreserved c = false :=
        special_not_unreserved hcs
          (fun hx => hp1 (hx ▸ List.mem_cons_self c s))
          (fun hx => hp2 (hx ▸ List.mem_cons_self c s))
      rw [hu]
      simp [percentEscape]
    · apply List.mem_append_right
      exact ih ⟨c, hcs', hcs⟩ (fun hx => hp1 (List.mem_cons_of_mem a hx))
        (fun hx => hp2 (List.mem_cons_of_mem a hx))

theorem mem_encodeURIComponent :
    ∀ (s : Str), (∀ c ∈ s, c.toNat < 128) →
      ∀ c ∈ encodeURIComponent s,
        (c ∈ s ∧ uriUnreserved c = true) ∨ c = '%' ∨ ∃ k, k < 16 ∧ c = hexDigitChar k := by
  intro s
  induction s with
  | nil => intro _ c hc; cases hc
  | cons a s ih =>
    intro h c hc
    have ha : a.toNat < 128 := h a (List.mem_cons_self a s)
    simp only [encodeURIComponent] at hc
    rcases List.mem_append.mp hc with hm | hm
    · by_cases hu : uriUnreserved a = true
      · rw [if_pos hu] at hm
        simp only [List.mem_singleton] at hm
        subst hm
        exact Or.inl ⟨List.mem_cons_self c s, hu⟩
      · rw [if_neg hu] at hm
        simp only [percentEscape, List.mem_cons, List.mem_singleton] at hm
        rcases hm with hm | hm | hm
        · exact Or.inr (Or.inl hm)
        · exact Or.inr (Or.inr ⟨a.toNat / 16, by omega, hm⟩)
        · rcases hm with hm | hm
          · exact Or.inr (Or.inr ⟨a.toNat % 16, by omega, hm⟩)
          · cases hm
    · rcases ih (fun x hx => h x (List.mem_cons_of_mem a hx)) c hm with
        ⟨hcs, hu⟩ | hrest
      · exact Or.inl ⟨List.mem_cons_of_mem a hcs, hu⟩
      · exact Or.inr hrest

/-! ## encodeIfNeeded / decodeIfNeeded field lemmas -/

theorem safeField_ascii {s : Str} (hs : safeField s) : ∀ c ∈ s, c.toNat < 128 := by
  intro c hc
  have := hs.2.1 c hc
  unfold printableAscii at this
  rw [Bool.and_eq_true, decide_eq_true_eq, decide_eq_true_eq] at this
  omega

/-- Every character of an encoded safe field is neither special nor
whitespace. -/
theorem encodeIfNeeded_wire {s : Str} (hs : safeField s) :
    ∀ c ∈ encodeIfNeeded s, SPECIAL_CHARS c = false ∧ isJsWhitespace c = false := by
  intro c hc
  unfold encodeIfNeeded at hc
  by_cases hsp : s.any SPECIAL_CHARS = true
  · rw [if_pos hsp] at hc
    rcases mem_encodeURIComponent s (safeField_ascii hs) c hc with
      ⟨hcs, hu⟩ | hc1 | ⟨k, hk, hc1⟩
    · have h1 : SPECIAL_CHARS c = false :=
        unreserved_not_special hu
          (fun hx => hs.2.2.2.1 (hx ▸ hcs))
          (fun hx => hs.2.2.2.2.1 (hx ▸ hcs))
      exact ⟨h1, unreserved_not_ws hu⟩
    · subst hc1
      exact ⟨by decide, by decide⟩
    · subst hc1
      exact ⟨(hexDigitChar_classes k hk).1, (hexDigitChar_classes k hk).2.1⟩
  · rw [if_neg hsp] at hc
    have h1 : SPECIAL_CHARS c = false := by
      by_contra h
      exact hsp (List.any_eq_true.mpr ⟨c, hc, Bool.of_not_eq_false h⟩)
    exact ⟨h1, printable_not_special_not_ws (hs.2.1 c hc) h1⟩

theorem encodeIfNeeded_ne_nil {s : Str} (hs : s ≠ []) : encodeIfNeeded s ≠ [] := by
  unfold encodeIfNeeded
  cases s with
  | nil => exact absurd rfl hs
  | cons a s =>
    split
    · simp only [encodeURIComponent]
      split <;> simp [percentEscape]
    · simp

/-- The codec transports a safe field faithfully. -/
theorem decodeIfNeeded_encodeIfNeeded {s : Str} (hs : safeField s) :
    decodeIfNeeded (encodeIfNeeded s) = some s := by
  unfold encodeIfNeeded
  by_cases hsp : s.any SPECIAL_CHARS = true
  · rw [if_pos hsp]
    unfold decodeIfNeeded
    have hmem : '%' ∈ encodeURIComponent s := by
      obtain ⟨c, hc, hcs⟩ := List.any_eq_true.mp hsp
      exact percent_mem_encodeURIComponent s ⟨c, hc, hcs⟩ hs.2.2.2.1 hs.2.2.2.2.1
    rw [if_pos (List.elem_iff.mpr hmem)]
    exact decode_encode_uri s (safeField_ascii hs)
  · rw [if_neg hsp]
    unfold decodeIfNeeded
    rw [if_neg]
    intro hcon
    exact hs.2.2.1 (List.elem_iff.mp hcon)

/-! ## Wire-level character facts for encoded services -/

/-- A safe technology entry's wire form contains no `;`, parentheses or `,`,
and no whitespace. -/
theorem encodeTech_chars {t : Technology}
    (h1 : safeField t.name) (h2 : safeField t.currentVersion) :
    ∀ c ∈ encodeTech t,
      c ≠ ';' ∧ c ≠ '(' ∧ c ≠ ')' ∧ c ≠ ',' ∧ isJsWhitespace c = false := by
  intro c hc
  unfold encodeTech at hc
  rcases List.mem_append.mp hc with hm | hm
  · have hw := encodeIfNeeded_wire h1 c hm
    have hne := special_false_ne hw.1
    exact ⟨hne.2.1, hne.2.2.2.1, hne.2.2.2.2.1, hne.2.2.1, hw.2⟩
  · rcases List.mem_cons.mp hm with hm2 | hm2
    · subst hm2
      refine ⟨by decide, by decide, by decide, by decide, by decide⟩
    · have hw := encodeIfNeeded_wire h2 c hm2
      have hne := special_false_ne hw.1
      exact ⟨hne.2.1, hne.2.2.2.1, hne.2.2.2.2.1, hne.2.2.1, hw.2⟩

/-- The joined technology list contains no `;` or parentheses, and no
whitespace. -/
theorem techList_chars {techs : List Technology}
    (h : ∀ t ∈ techs, safeField t.name ∧ safeField t.currentVersion) :
    ∀ c ∈ List.intercalate [','] (techs.map encodeTech),
      c ≠ ';' ∧ c ≠ '(' ∧ c ≠ ')' ∧ isJsWhitespace c = false := by
  intro c hc
  rcases mem_of_mem_intercalate [','] _ c hc with hm | ⟨p, hp, hcp⟩
  · simp only [List.mem_singleton] at hm
    subst hm
    exact ⟨by decide, by decide, by decide, by decide⟩
  · obtain ⟨t, ht, hpt⟩ := List.mem_map.mp hp
    subst hpt
    have := encodeTech_chars (h t ht).1 (h t ht).2 c hcp
    exact ⟨this.1, this.2.1, this.2.2.1, this.2.2.2.2⟩

/-- A whole encoded service item contains no `;` and no whitespace. -/
theorem encodeService_chars {sv : Service} (h1 : safeField sv.name)
    (h2 : ∀ t ∈ sv.technologies, safeField t.name ∧ safeField t.currentVersion) :
    ∀ c ∈ encodeService sv, c ≠ ';' ∧ isJsWhitespace c = false := by
  intro c hc
  unfold encodeService at hc
  rcases List.mem_append.mp hc with hm | hm
  · rcases List.mem_append.mp hm with hm2 | hm2
    · have hw := encodeIfNeeded_wire h1 c hm2
      exact ⟨(special_false_ne hw.1).2.1, hw.2⟩
    · rcases List.mem_cons.mp hm2 with hm3 | hm3
      · subst hm3
        exact ⟨by decide, by decide⟩
      · have := techList_chars h2 c hm3
        exact ⟨this.1, this.2.2.2⟩
  · simp only [List.mem_singleton] at hm
    subst hm
    exact ⟨by decide, by decide⟩

theorem encodeService_ne_nil (sv : Service) : encodeService sv ≠ [] := by
  unfold encodeService
  simp

/-! ## Strict decoding of an encoded technology list -/

theorem decodeTechsStrict_encode (serviceName : Str) (hsn : serviceName ≠ []) :
    ∀ (techs : List Technology) (j : Nat),
      (∀ t ∈ techs, safeField t.name ∧ safeField t.currentVersion) →
      ∃ ts, decodeTechsStrict serviceName (techs.map encodeTech) j = .ok ts ∧
        ts.map obsTech = techs.map obsTech ∧ ts.all validTech = true := by
  intro techs
  induction techs with
  | nil => intro j _; exact ⟨[], rfl, rfl, rfl⟩
  | cons t techs ih =>
    intro j hsafe
    have hst : safeField t.name := (hsafe t (List.mem_cons_self t techs)).1
    have hsv : safeField t.currentVersion := (hsafe t (List.mem_cons_self t techs)).2
    obtain ⟨ts, hok, hobs, hval⟩ :=
      ih (j + 1) (fun x hx => hsafe x (List.mem_cons_of_mem t hx))
    have hchars := encodeTech_chars hst hsv
    have htrim : trim (encodeTech t) = encodeTech t :=
      trim_eq_self_of_all _ (fun c hc => (hchars c hc).2.2.2.2)
    have hne : encodeTech t ≠ [] := by
      unfold encodeTech
      exact append_cons_ne_nil _ ':' _
    have hcolon : idxOf? ':' (encodeTech t) =
        some (encodeIfNeeded t.name).length := by
      unfold encodeTech
      exact idxOf?_append_cons ':' _ _
        (fun hm => absurd (encodeIfNeeded_wire hst ':' hm).1 (by decide))
    have htake : jsSubstring (encodeTech t) 0 (encodeIfNeeded t.name).length =
        encodeIfNeeded t.name := by
      rw [jsSubstring_zero]
      unfold encodeTech
      exact List.take_left _ _
    have hdrop : (encodeTech t).drop ((encodeIfNeeded t.name).length + 1) =
        encodeIfNeeded t.currentVersion := by
      unfold encodeTech
      exact drop_append_cons _ ':' _
    have hnm : ¬ (t.name = [] ∨ trim t.name = []) := by
      rintro (hx | hx)
      · exact hst.1 hx
      · obtain ⟨c, hc, hcs⟩ := hst.2.2.2.2.2
        exact trim_ne_nil_of_exists
          ⟨c, hc, printable_ne_space_not_ws (hst.2.1 c hc) hcs⟩ hx
    have hvr : ¬ (t.currentVersion = [] ∨ trim t.currentVersion = []) := by
      rintro (hx | hx)
      · exact hsv.1 hx
      · obtain ⟨c, hc, hcs⟩ := hsv.2.2.2.2.2
        exact trim_ne_nil_of_exists
          ⟨c, hc, printable_ne_space_not_ws (hsv.2.1 c hc) hcs⟩ hx
    refine ⟨⟨mkStrictTechId serviceName t.name j, t.name, t.currentVersion⟩ :: ts,
      ?_, ?_, ?_⟩
    · simp only [List.map_cons, decodeTechsStrict]
      rw [htrim, if_neg hne, hcolon]
      dsimp only
      rw [htake, hdrop, decodeIfNeeded_encodeIfNeeded hst,
        decodeIfNeeded_encodeIfNeeded hsv]
      dsimp only
      rw [if_neg hnm, if_neg hvr, hok]
      rfl
    · simp only [List.map_cons, hobs]
      rfl
    · simp only [List.all_cons, hval, Bool.and_true]
      unfold validTech mkStrictTechId
      have h1 : serviceName ++ '-' :: t.name ++ '-' :: (Nat.repr j).data ≠ [] :=
        append_cons_ne_nil _ '-' _
      simp only [Bool.and_eq_true, Bool.not_eq_true']
      refine ⟨⟨by simpa [List.isEmpty_iff] using h1, ?_⟩, ?_⟩
      · simpa [List.isEmpty_iff] using hst.1
      · simpa [List.isEmpty_iff] using hsv.1

/-! ## Strict decoding of an encoded service list -/

theorem safeService_of_safeState {st : URLState} (h : safeState st) :
    ∀ sv ∈ st.services, safeField sv.name ∧
      ∀ t ∈ sv.technologies, safeField t.name ∧ safeField t.currentVersion := h

theorem decodeServicesStrict_encode :
    ∀ (services : List Service) (i : Nat),
      (∀ sv ∈ services, safeField sv.name ∧
        ∀ t ∈ sv.technologies, safeField t.name ∧ safeField t.currentVersion) →
      ∃ svs, decodeServicesStrict (services.map encodeService) i = .ok svs ∧
        svs.map obsService = services.map obsService ∧
        svs.all validService = true := by
  intro services
  induction services with
  | nil => intro i _; exact ⟨[], rfl, rfl, rfl⟩
  | cons sv services ih =>
    intro i hsafe
    have hsn : safeField sv.name := (hsafe sv (List.mem_cons_self sv services)).1
    have hstechs := (hsafe sv (List.mem_cons_self sv services)).2
    obtain ⟨svs, hok, hobs, hval⟩ :=
      ih (i + 1) (fun x hx => hsafe x (List.mem_cons_of_mem sv hx))
    have hchars := encodeService_chars hsn hstechs
    have htrim : trim (encodeService sv) = encodeService sv :=
      trim_eq_self_of_all _ (fun c hc => (hchars c hc).2)
    have hne : encodeService sv ≠ [] := encodeService_ne_nil sv
    have hshape : encodeService sv =
        encodeIfNeeded sv.name ++
          ('(' :: (List.intercalate [','] (sv.technologies.map encodeTech) ++ [')'])) := by
      unfold encodeService
      rw [List.append_assoc, List.cons_append]
    have hopen : idxOf? '(' (encodeService sv) =
        some (encodeIfNeeded sv.name).length := by
      rw [hshape]
      exact idxOf?_append_cons '(' _ _
        (fun hm => absurd (encodeIfNeeded_wire hsn '(' hm).1 (by decide))
    have hlen : (encodeService sv).length =
        (encodeIfNeeded sv.name).length + 1 +
          (List.intercalate [','] (sv.technologies.map encodeTech)).length + 1 := by
      unfold encodeService
      simp only [List.length_append, List.length_cons, List.length_singleton,
        List.length_nil]
      omega
    have hclose : lastIdxOf? ')' (encodeService sv) =
        some ((encodeService sv).length - 1) := by
      have h1 := lastIdxOf?_append_cons ')'
        (encodeIfNeeded sv.name ++
          '(' :: List.intercalate [','] (sv.technologies.map encodeTech)) []
        (by simp)
      have h2 : encodeService sv =
          (encodeIfNeeded sv.name ++
            '(' :: List.intercalate [','] (sv.technologies.map encodeTech)) ++ [')'] :=
        rfl
      rw [h2, h1]
      congr 1
      simp only [List.length_append, List.length_cons, List.length_singleton,
        List.length_nil]
      omega
    have hop0 : (encodeIfNeeded sv.name).length ≠ 0 := by
      intro h0
      exact encodeIfNeeded_ne_nil hsn.1 (List.length_eq_zero.mp h0)
    have hname : jsSubstring (encodeService sv) 0 (encodeIfNeeded sv.name).length =
        encodeIfNeeded sv.name := by
      rw [jsSubstring_zero, hshape]
      exact List.take_left _ _
    have htechsub : jsSubstring (encodeService sv)
        ((encodeIfNeeded sv.name).length + 1) ((encodeService sv).length - 1) =
        List.intercalate [','] (sv.technologies.map encodeTech) :=
      jsSubstring_segment (encodeIfNeeded sv.name) _
    have hnm : ¬ (sv.name = [] ∨ trim sv.name = []) := by
      rintro (hx | hx)
      · exact hsn.1 hx
      · obtain ⟨c, hc, hcs⟩ := hsn.2.2.2.2.2
        exact trim_ne_nil_of_exists
          ⟨c, hc, printable_ne_space_not_ws (hsn.2.1 c hc) hcs⟩ hx
    -- decode the technology list substring
    have htechdec : ∃ ts,
        (if trim (List.intercalate [','] (sv.technologies.map encodeTech)) ≠ [] then
          decodeTechsStrict sv.name
            ((List.intercalate [','] (sv.technologies.map encodeTech)).splitOn ',') 0
        else Except.ok []) = .ok ts ∧
        ts.map obsTech = sv.technologies.map obsTech ∧
        ts.all validTech = true := by
      cases htc : sv.technologies with
      | nil => exact ⟨[], by rw [if_neg (by simp [List.intercalate, trim_nil])], rfl, rfl⟩
      | cons t techs =>
        have hTtrim : trim (List.intercalate [','] ((t :: techs).map encodeTech)) =
            List.intercalate [','] ((t :: techs).map encodeTech) :=
          trim_eq_self_of_all _
            (fun c hc => (techList_chars (htc ▸ hstechs) c hc).2.2.2)
        have hTne : List.intercalate [','] ((t :: techs).map encodeTech) ≠ [] := by
          cases techs with
          | nil =>
            rw [List.map_cons, List.map_nil, intercalate_singleton_list]
            unfold encodeTech
            exact append_cons_ne_nil _ ':' _
          | cons t2 techs2 =>
            rw [List.map_cons, List.map_cons, intercalate_cons_cons]
            simp only [ne_eq, List.append_eq_nil, not_and]
            intro hx
            exact absurd (hx.1) (by
              unfold encodeTech
              exact append_cons_ne_nil _ ':' _)
        have hsplit : (List.intercalate [','] ((t :: techs).map encodeTech)).splitOn ',' =
            (t :: techs).map encodeTech := by
          apply List.splitOn_intercalate
          · intro p hp hmem
            obtain ⟨x, hx, hpx⟩ := List.mem_map.mp hp
            exact absurd rfl
              (encodeTech_chars ((htc ▸ hstechs) x hx).1 ((htc ▸ hstechs) x hx).2
                ',' (hpx ▸ hmem)).2.2.2.1
          · simp
        obtain ⟨ts, htok, htobs, htval⟩ :=
          decodeTechsStrict_encode sv.name hsn.1 (t :: techs) 0 (htc ▸ hstechs)
        refine ⟨ts, ?_, htobs, htval⟩
        rw [if_pos (by rw [hTtrim]; exact hTne), hsplit, htok]
    obtain ⟨ts, htsok, htsobs, htsval⟩ := htechdec
    refine ⟨⟨mkServiceId i, sv.name, ts⟩ :: svs, ?_, ?_, ?_⟩
    · simp only [List.map_cons, decodeServicesStrict]
      rw [htrim, if_neg hne, hopen, hclose]
      dsimp only
      rw [if_neg hop0, hname, decodeIfNeeded_encodeIfNeeded hsn]
      dsimp only
      rw [if_neg hnm, htechsub]
      by_cases hcond : trim (List.intercalate [','] (sv.technologies.map encodeTech)) ≠ []
      · rw [if_pos hcond] at htsok
        rw [if_pos hcond, htsok]
        simp only [Bind.bind, Except.bind]
        rw [hok]
      · rw [if_neg hcond] at htsok
        have hts : ([] : List Technology) = ts := by injection htsok
        rw [if_neg hcond]
        simp only [Bind.bind, Except.bind]
        rw [hok, ← hts]
    · simp only [List.map_cons, List.cons.injEq]
      exact ⟨by unfold obsService; rw [htsobs], hobs⟩
    · simp only [List.all_cons, hval, Bool.and_true]
      unfold validService
      simp only [Bool.and_eq_true, Bool.not_eq_true']
      refine ⟨⟨?_, ?_⟩, htsval⟩
      · simp [mkServiceId, List.isEmpty_iff]
      · simpa [List.isEmpty_iff] using hsn.1

theorem serializeServices_chars {services : List Service}
    (h : ∀ sv ∈ services, safeField sv.name ∧
      ∀ t ∈ sv.technologies, safeField t.name ∧ safeField t.currentVersion) :
    ∀ c ∈ serializeServices services, isJsWhitespace c = false := by
  intro c hc
  rcases mem_of_mem_intercalate [';'] (services.map encodeService) c hc with
    hm | ⟨p, hp, hcp⟩
  · have : c = ';' := by simpa using hm
    subst this; decide
  · obtain ⟨sv, hsv, rfl⟩ := List.mem_map.mp hp
    exact (encodeService_chars (h sv hsv).1 (h sv hsv).2 c hcp).2

theorem serializeServices_ne_nil (sv : Service) (rest : List Service) :
    serializeServices (sv :: rest) ≠ [] := by
  unfold serializeServices
  cases rest with
  | nil =>
    rw [List.map_cons, List.map_nil, intercalate_singleton_list]
    exact encodeService_ne_nil sv
  | cons sv2 rest2 =>
    rw [List.map_cons, List.map_cons, intercalate_cons_cons]
    simp only [ne_eq, List.append_eq_nil, not_and]
    intro hx
    exact absurd hx.1 (encodeService_ne_nil sv)

theorem splitOn_serializeServices {services : List Service} (hne : services ≠ [])
    (h : ∀ sv ∈ services, safeField sv.name ∧
      ∀ t ∈ sv.technologies, safeField t.name ∧ safeField t.currentVersion) :
    (serializeServices services).splitOn ';' = services.map encodeService := by
  unfold serializeServices
  apply List.splitOn_intercalate
  · intro p hp hmem
    obtain ⟨sv, hsv, rfl⟩ := List.mem_map.mp hp
    exact (encodeService_chars (h sv hsv).1 (h sv hsv).2 ';' hmem).1 rfl
  · simpa using hne

/-- **C1** (amended): the encode/decode round-trip does hold once every name
and version is a safe field — non-empty printable ASCII, not whitespace-only,
and containing no `%`, `(` or `)`. Whenever `encodeURLState` succeeds on such
a state, `decodeURLState` on its output succeeds and recovers a state with the
same service names and the same technology (name, version) pairs. The
unamended claim fails because `encodeURIComponent` leaves `(` and `)`
unescaped and `decodeIfNeeded` percent-decodes any field containing `%`. -/
theorem c1_roundtrip_amended (st : URLState) (enc : Str)
    (hsafe : safeState st) (henc : encodeURLState st = .ok enc) :
    ∃ st2, decodeURLState enc = .ok st2 ∧
      st2.services.map obsService = st.services.map obsService := by
  by_cases hempty : st.services.isEmpty
  · have henc' : enc = [] := by
      unfold encodeURLState at henc
      rw [if_pos hempty] at henc
      injection henc with h
      exact h.symm
    subst henc'
    have h0 : st.services = [] := by
      cases hs : st.services with
      | nil => rfl
      | cons a l => rw [hs] at hempty; exact absurd hempty (by simp [List.isEmpty])
    refine ⟨⟨SCHEMA_VERSION, []⟩, ?_, ?_⟩
    · unfold decodeURLState
      rw [if_pos (Or.inl rfl)]
    · rw [h0]
  · have hsafe' : ∀ sv ∈ st.services, safeField sv.name ∧
        ∀ t ∈ sv.technologies, safeField t.name ∧ safeField t.currentVersion := hsafe
    have hencser : enc = serializeServices st.services := by
      unfold encodeURLState at henc
      rw [if_neg hempty] at henc
      by_cases hlen :
          MAX_URL_LENGTH < (("?s=".data) ++ serializeServices st.services).length
      · rw [if_pos hlen] at henc
        exact Except.noConfusion henc
      · rw [if_neg hlen] at henc
        injection henc with h
        exact h.symm
    obtain ⟨sv0, rest, hsv0⟩ : ∃ sv0 rest, st.services = sv0 :: rest := by
      cases hs : st.services with
      | nil => rw [hs] at hempty; exact absurd rfl hempty
      | cons a l => exact ⟨a, l, rfl⟩
    have hchars : ∀ c ∈ enc, isJsWhitespace c = false := by
      rw [hencser]
      exact serializeServices_chars hsafe'
    have hne : enc ≠ [] := by
      rw [hencser, hsv0]
      exact serializeServices_ne_nil sv0 rest
    have htrim : trim enc = enc := trim_eq_self_of_all _ hchars
    have hsplit : enc.splitOn ';' = st.services.map encodeService := by
      rw [hencser]
      exact splitOn_serializeServices (by rw [hsv0]; exact List.cons_ne_nil _ _) hsafe'
    obtain ⟨svs, hok, hobs, hval⟩ := decodeServicesStrict_encode st.services 0 hsafe'
    have hguard : ¬ (enc = [] ∨ trim enc = []) := by
      rw [htrim]
      simp [hne]
    refine ⟨⟨SCHEMA_VERSION, svs⟩, ?_, hobs⟩
    unfold decodeURLState
    rw [if_neg hguard, hsplit, hok]
    simp only [Bind.bind, Except.bind]
    have hv : validateURLState ⟨SCHEMA_VERSION, svs⟩ = true := hval
    rw [if_pos hv]

/-- Witness for `c1_roundtrip_amended`: the state with service "my app" and
technology ("node.js", "1:2, x") encodes to `my%20app(node.js:1%3A2%2C%20x)`
and decodes back to the same observable content. -/
theorem c1_roundtrip_amended_witness :
    ∃ st2, decodeURLState (("my%20app(node.js:1%3A2%2C%20x)").data) = .ok st2 ∧
      st2.services.map obsService = specialState.services.map obsService :=
  c1_roundtrip_amended specialState (("my%20app(node.js:1%3A2%2C%20x)").data)
    (by decide) (by rfl)

/-- **C10**: a segment `<name>(` … `)` whose technology list is empty or
whitespace-only decodes, in both the strict and the lenient variant, to a
single service with that name and an empty technology array, with no error.
The name must be a single clean token: non-empty, not starting with
whitespace, and containing none of `(`, `)`, `;`, `%`. -/
theorem c10_empty_tech_list (name ws : Str)
    (hn : name ≠ [])
    (hhead : ∀ c ∈ name.take 1, isJsWhitespace c = false)
    (hp : '(' ∉ name) (hq : ')' ∉ name) (hsc : ';' ∉ name) (hpc : '%' ∉ name)
    (hws : ∀ c ∈ ws, c = ' ') :
    decodeURLState (name ++ '(' :: ws ++ [')']) =
      .ok ⟨SCHEMA_VERSION, [⟨mkServiceId 0, name, []⟩]⟩ ∧
    decodeURLStateLenient (name ++ '(' :: ws ++ [')']) =
      .ok ⟨SCHEMA_VERSION, [⟨mkServiceId 0, name, []⟩]⟩ := by
  obtain ⟨a, name', rfl⟩ : ∃ a name', name = a :: name' := by
    cases name with
    | nil => exact absurd rfl hn
    | cons a l => exact ⟨a, l, rfl⟩
  have ha : isJsWhitespace a = false := hhead a (by simp)
  have hwst : ∀ c ∈ ws, isJsWhitespace c = true := by
    intro c hc
    rw [hws c hc]
    decide
  have hpws : '(' ∉ ws := fun hc => absurd (hws '(' hc) (by decide)
  have hgl : (((a :: name') ++ '(' :: ws) ++ [')']).getLast? = some ')' :=
    List.getLast?_concat _
  have hsegne : (a :: name') ++ '(' :: ws ++ [')'] ≠ [] := by
    exact List.cons_ne_nil a _
  have htrim : trim ((a :: name') ++ '(' :: ws ++ [')']) =
      (a :: name') ++ '(' :: ws ++ [')'] := by
    refine trim_eq_self_of_ends _ ?_ ?_
    · intro c hc
      have h2 : some a = some c := hc
      cases Option.some.inj h2
      exact ha
    · intro c hc
      rw [hgl] at hc
      cases Option.some.inj hc
      decide
  have hguard : ¬ ((a :: name') ++ '(' :: ws ++ [')'] = [] ∨
      trim ((a :: name') ++ '(' :: ws ++ [')']) = []) := by
    rw [htrim]
    simp [hsegne]
  have hnosemi : ∀ c ∈ (a :: name') ++ '(' :: ws ++ [')'], c ≠ ';' := by
    intro c hc
    rcases List.mem_append.mp hc with hc1 | hc2
    · rcases List.mem_append.mp hc1 with hcn | hcp
      · exact fun h => hsc (h ▸ hcn)
      · rcases List.mem_cons.mp hcp with hc3 | hc3
        · subst hc3; decide
        · rw [hws c hc3]; decide
    · rw [List.mem_singleton.mp hc2]; decide
  have hsplit : ((a :: name') ++ '(' :: ws ++ [')']).splitOn ';' =
      [(a :: name') ++ '(' :: ws ++ [')']] := by
    apply List.splitOnP_eq_single
    intro x hx
    simp only [beq_iff_eq]
    exact hnosemi x hx
  have hshape : (a :: name') ++ '(' :: ws ++ [')'] =
      (a :: name') ++ '(' :: (ws ++ [')']) := by
    simp
  have hopen : idxOf? '(' ((a :: name') ++ '(' :: ws ++ [')']) =
      some (a :: name').length := by
    rw [hshape]
    exact idxOf?_append_cons '(' _ _ hp
  have hclose : lastIdxOf? ')' ((a :: name') ++ '(' :: ws ++ [')']) =
      some (((a :: name') ++ '(' :: ws ++ [')']).length - 1) := by
    have h1 := lastIdxOf?_append_cons ')' ((a :: name') ++ '(' :: ws) [] (by simp)
    rw [h1]
    congr 1
    simp only [List.length_append, List.length_cons, List.length_nil]
    omega
  have hop0 : (a :: name').length ≠ 0 := by simp
  have hnamesub : jsSubstring ((a :: name') ++ '(' :: ws ++ [')']) 0
      (a :: name').length = a :: name' := by
    rw [jsSubstring_zero, hshape]
    exact List.take_left _ _
  have hdecname : decodeIfNeeded (a :: name') = some (a :: name') := by
    unfold decodeIfNeeded
    rw [if_neg]
    intro hcon
    exact hpc (List.elem_iff.mp hcon)
  have hnm : ¬ (a :: name' = [] ∨ trim (a :: name') = []) := by
    rintro (h | h)
    · exact List.cons_ne_nil a name' h
    · exact trim_ne_nil_of_exists ⟨a, List.mem_cons_self a name', ha⟩ h
  have htechsub := jsSubstring_segment (a :: name') ws
  have htrimws : trim ws = [] := trim_eq_nil_of_all_ws hwst
  have hid : (mkServiceId 0).isEmpty = false := by decide
  refine ⟨?_, ?_⟩
  · -- strict decoder
    have hdec : decodeServicesStrict [(a :: name') ++ '(' :: ws ++ [')']] 0 =
        .ok [⟨mkServiceId 0, a :: name', []⟩] := by
      simp only [decodeServicesStrict]
      rw [htrim, if_neg hsegne, hopen, hclose]
      dsimp only
      rw [if_neg hop0, hnamesub, hdecname]
      dsimp only
      rw [if_neg hnm, htechsub]
      rw [if_neg (show ¬ trim ws ≠ [] from fun h => h htrimws)]
      rfl
    have hv : validateURLState
        ⟨SCHEMA_VERSION, [⟨mkServiceId 0, a :: name', []⟩]⟩ = true := by
      unfold validateURLState validService
      simp [hid]
    unfold decodeURLState
    rw [if_neg hguard, hsplit, hdec]
    simp only [Bind.bind, Except.bind]
    rw [if_pos hv]
  · -- lenient decoder
    have hparse : lenientParseSegment ((a :: name') ++ '(' :: ws ++ [')']) =
        some (a :: name', ws) := by
      unfold lenientParseSegment
      rw [if_pos hgl]
      dsimp only
      rw [List.dropLast_concat]
      rw [lastIdxOf?_append_cons '(' (a :: name') ws hpws]
      dsimp only
      rw [if_pos (show 1 ≤ (a :: name').length from
        Nat.succ_le_succ (Nat.zero_le name'.length))]
      rw [List.take_left, drop_append_cons]
    have hldec : lenientServices [(a :: name') ++ '(' :: ws ++ [')']] 0 =
        .ok [⟨mkServiceId 0, a :: name', []⟩] := by
      simp only [lenientServices]
      rw [if_neg hsegne, hparse]
      dsimp only
      rw [hdecname]
      dsimp only
      rw [if_neg (List.cons_ne_nil a name')]
      by_cases hw : ws = []
      · rw [if_neg (fun h => h hw)]
        rfl
      · have hwsplit : ws.splitOn ',' = [ws] := by
          apply List.splitOnP_eq_single
          intro x hx
          simp only [beq_iff_eq]
          rw [hws x hx]
          decide
        have hcolon : idxOf? ':' ws = none := by
          unfold idxOf?
          rw [List.findIdx?_eq_none_iff]
          intro x hx
          rw [hws x hx]
          decide
        have htl : lenientTechs 0 [ws] 0 = .ok [] := by
          simp only [lenientTechs]
          rw [if_neg hw, hcolon]
        rw [if_pos hw, hwsplit, htl]
        rfl
    unfold decodeURLStateLenient
    rw [if_neg hguard, htrim, hsplit, hldec]
    rfl

/-- Witness for `c10_empty_tech_list`: the segment `abc(   )` decodes, in
both variants, to the single service "abc" with an empty technology list. -/
theorem c10_empty_tech_list_witness :
    decodeURLState (("abc".data) ++ '(' :: ("   ".data) ++ [')']) =
      .ok ⟨SCHEMA_VERSION, [⟨mkServiceId 0, ("abc".data), []⟩]⟩ ∧
    decodeURLStateLenient (("abc".data) ++ '(' :: ("   ".data) ++ [')']) =
      .ok ⟨SCHEMA_VERSION, [⟨mkServiceId 0, ("abc".data), []⟩]⟩ :=
  c10_empty_tech_list ("abc".data) ("   ".data) (by decide) (by decide)
    (by decide) (by decide) (by decide) (by decide) (by decide)

end EolChecker
